import Mathlib

/-!
# Verification of the PhyloPy phylogeny core (src/Modules/Phylogeny.py)

A shallow embedding of the Newick-style parser (`read_string`,
`find_correct_comma`, `format_list`), the leaf enumerator (`read_leaves`),
the `Tree` class and the clade decomposition (`recur_clades`).

Modelling conventions:
* Python values flowing through the parser and the clade walk are nested
  lists/tuples of strings; they are embedded as the inductive type `PyVal`.
* Python `float` arithmetic is modelled exactly, by unreduced fractions
  `PyFloat` (an integer numerator over a natural denominator, with
  gcd-free kernel-computable operations and a semantics `PyFloat.toRat`
  into `ℚ`); `float(s)` is `parseFloat s : Option PyFloat`, `none`
  meaning `ValueError`.  Specials (`inf`, `nan`, digit-group
  underscores) are not modelled: none of them can reach the
  branch-length position of the inputs considered.
* A fallible Python computation is an `Option`: `none` is an uncaught
  exception (`IndexError`, `TypeError`, …) propagating out of the call.
* Recursive Python functions that walk a `PyVal` are not structurally
  recursive on `PyVal` (they descend through `element[0]`), so each one
  takes an explicit nesting-depth fuel; one unit of fuel is consumed per
  nesting level, never along a sibling list, and exhausted fuel yields
  `none`.  Every theorem either quantifies over the fuel or supplies a
  fuel that is provably sufficient (e.g. the input string's length).
* There is no file system in the embedding: `os.path.isfile` is `False`,
  so a string input to `Tree.__init__` is always the "trivial tree" str.
-/

namespace Phylogeny

/-- A Python value as manipulated by the phylogeny module: a string, a
tuple, or a list (tuples and lists must be distinguished because the code
branches on `isinstance(x, tuple)` vs `isinstance(x, list)`). -/
inductive PyVal where
  | str : String → PyVal
  | tuple : List PyVal → PyVal
  | list : List PyVal → PyVal
deriving Repr

/-- `element[0]` for a Python value: first character of a string (as a
1-character string), or head of a tuple/list. `none` is `IndexError`. -/
def eHead : PyVal → Option PyVal
  | .str s => s.data.head?.map fun c => .str (String.mk [c])
  | .tuple l => l.head?
  | .list l => l.head?

/-- `element[-1]` for a Python value: last character of a string (as a
1-character string), or last entry of a tuple/list. `none` is `IndexError`. -/
def eLast : PyVal → Option PyVal
  | .str s => s.data.getLast?.map fun c => .str (String.mk [c])
  | .tuple l => l.getLast?
  | .list l => l.getLast?

/-- `for element in x`: characters of a string (as 1-character strings),
or the entries of a tuple/list. -/
def pyElems : PyVal → List PyVal
  | .str s => s.data.map fun c => .str (String.mk [c])
  | .tuple l => l
  | .list l => l

/-! ## Exact Python-float values: unreduced fractions

The phylogeny code only ever builds a float from decimal text, adds two
floats, tests truthiness (`x != 0.0`) and compares with `>=`.  All of
this is modelled exactly by unreduced fractions (kernel-computable, no
gcd), with a semantics map `PyFloat.toRat` into `ℚ`. -/

/-- An exact float value: the fraction `num / den`.  Every value built
by this development has a positive denominator. -/
structure PyFloat where
  num : ℤ
  den : ℕ
deriving Repr, DecidableEq

/-- The rational denoted by a `PyFloat`. -/
def PyFloat.toRat (a : PyFloat) : ℚ := (a.num : ℚ) / (a.den : ℚ)

/-- Exact float addition (`+` on Python floats, modelled exactly). -/
def PyFloat.add (a b : PyFloat) : PyFloat :=
  ⟨a.num * b.den + b.num * a.den, a.den * b.den⟩

/-- Truthiness of a Python float: `bool(x)` is false exactly for `0.0`. -/
def PyFloat.isZero (a : PyFloat) : Bool := a.num == 0

/-- `a <= b` on Python floats (cross-multiplied; exact for positive
denominators). -/
def PyFloat.le (a b : PyFloat) : Bool := a.num * (b.den : ℤ) ≤ b.num * (a.den : ℤ)

/-- The float `0.0`. -/
def pyZero : PyFloat := ⟨0, 1⟩

/-- Strip leading and trailing whitespace, as Python `float` does. -/
def stripWS (cs : List Char) : List Char :=
  ((cs.dropWhile Char.isWhitespace).reverse.dropWhile Char.isWhitespace).reverse

/-- Decimal digits to a natural number (most significant first). -/
def digitsToNat (cs : List Char) : ℕ :=
  cs.foldl (fun a c => 10 * a + (c.toNat - 48)) 0

/-- Unsigned decimal mantissa: `digits`, `digits.digits`, `.digits` or
`digits.` — at least one digit overall. -/
def parseMant (cs : List Char) : Option PyFloat :=
  let ip := cs.takeWhile Char.isDigit
  let rest := cs.dropWhile Char.isDigit
  match rest with
  | [] => if ip.isEmpty then none else some ⟨(digitsToNat ip : ℤ), 1⟩
  | '.' :: fp =>
    if fp.all Char.isDigit && !(ip.isEmpty && fp.isEmpty) then
      some ⟨(digitsToNat (ip ++ fp) : ℤ), 10 ^ fp.length⟩
    else none
  | _ => none

/-- Signed integer exponent after `e`/`E`: optional sign, then ≥ 1 digit. -/
def parseExpPart (cs : List Char) : Option ℤ :=
  match cs with
  | '+' :: ds => if !ds.isEmpty && ds.all Char.isDigit then some (digitsToNat ds : ℤ) else none
  | '-' :: ds => if !ds.isEmpty && ds.all Char.isDigit then some (-(digitsToNat ds : ℤ)) else none
  | ds => if !ds.isEmpty && ds.all Char.isDigit then some (digitsToNat ds : ℤ) else none

/-- Scale a fraction by `10 ^ e` without introducing division. -/
def PyFloat.scale10 (a : PyFloat) (e : ℤ) : PyFloat :=
  if 0 ≤ e then ⟨a.num * 10 ^ e.toNat, a.den⟩ else ⟨a.num, a.den * 10 ^ (-e).toNat⟩

/-- Negate a fraction (for the `-` sign of a float literal). -/
def PyFloat.neg (a : PyFloat) : PyFloat := ⟨-a.num, a.den⟩

/-- Model of Python `float(s)`: optional surrounding whitespace, optional
sign, decimal mantissa, optional decimal exponent.  `none` is
`ValueError`. -/
def parseFloat (s : String) : Option PyFloat :=
  let cs := stripWS s.data
  let isNeg : Bool := match cs with
    | '-' :: _ => true
    | _ => false
  let body := match cs with
    | '+' :: r => r
    | '-' :: r => r
    | r => r
  let mantCs := body.takeWhile fun c => c ≠ 'e' && c ≠ 'E'
  let expCs := body.dropWhile fun c => c ≠ 'e' && c ≠ 'E'
  let signed : PyFloat → PyFloat := fun a => if isNeg then a.neg else a
  match expCs with
  | [] => (parseMant mantCs).map signed
  | _ :: ecs => do
      let m ← parseMant mantCs
      let e ← parseExpPart ecs
      pure (signed (m.scale10 e))

/-! ## The delimiter splitter `find_correct_comma` -/

/-- Does the prefix of `cs` of length `i` contain as many `'('` as `')'`?
(the test `len(np.where(array[:comma_loc]=="(")[0]) == len(...==")")`). -/
def parenBalancedAt (cs : List Char) (i : ℕ) : Bool :=
  (cs.take i).count '(' == (cs.take i).count ')'

/-- Positions of the commas of `cs` whose preceding prefix is
paren-balanced (the `splits` list of `find_correct_comma`). -/
def topCommaLocs (cs : List Char) : List ℕ :=
  (List.range cs.length).filter fun i => cs.get? i == some ',' && parenBalancedAt cs i

/-- The trailing slices `string[splits[i]+1 : splits[i+1]]` …
`string[splits[-1]+1:]` of `find_correct_comma`'s return value. -/
def fccSlices (cs : List Char) : List ℕ → List String
  | [] => []
  | [p] => [String.mk (cs.drop (p + 1))]
  | p :: q :: r => String.mk ((cs.drop (p + 1)).take (q - p - 1)) :: fccSlices cs (q :: r)

/-- `find_correct_comma`: split on every comma whose prefix is
paren-balanced.  When no comma qualifies, `splits[0]` raises `IndexError`
(= `none`). -/
def find_correct_comma (s : String) : Option (List String) :=
  match topCommaLocs s.data with
  | [] => none
  | p :: r => some (String.mk (s.data.take p) :: fccSlices s.data (p :: r))

/-! ## `read_string` (the recursive-descent parser) -/

/-- Python `s.split(sep)` on characters: split at every occurrence,
keeping empty fragments. -/
def splitChar (sep : Char) : List Char → List (List Char)
  | [] => [[]]
  | c :: rest =>
    if c = sep then [] :: splitChar sep rest
    else
      match splitChar sep rest with
      | [] => [[c]]
      | p :: ps => (c :: p) :: ps

/-- Python `s.split(":")`. -/
def pysplit (s : String) (sep : Char) : List String :=
  (splitChar sep s.data).map String.mk

/-- Python `s.rsplit(sep, 1)`: split at the last occurrence of `sep`;
`[s]` when `sep` does not occur. -/
def pyrsplit1 (s : String) (sep : Char) : List String :=
  match ((List.range s.data.length).filter fun i => s.data.get? i == some sep).getLast? with
  | none => [s]
  | some i => [String.mk (s.data.take i), String.mk (s.data.drop (i + 1))]

/-- One fragment of the sibling list inside `read_string`: a fragment
starting with `'('` recurses (via `prev`, the parser at one fuel level
down, with `recursion_number + 1`), any other fragment becomes
`element.split(":")`.  An empty fragment raises `IndexError` on
`element[0]`. -/
def rsFragsLoop (prev : String → ℕ → Option PyVal) (rn : ℕ) :
    List String → Option (List PyVal)
  | [] => some []
  | f :: fs => do
    let v ←
      if f.data.isEmpty then none
      else if f.data.head? == some '(' then prev f rn
      else some (.list ((pysplit f ':').map .str))
    let vs ← rsFragsLoop prev rn fs
    pure (v :: vs)

/-- The body of `read_string` at one recursion level; `prev` is the parser
with one less unit of fuel. -/
def rsLevel (prev : String → ℕ → Option PyVal) (s : String) (rn : ℕ) : Option PyVal :=
  if rn = 0 then
    -- temp_string = string[1:-2]  (strip "(" and ");")
    let temp := String.mk ((s.data.take (s.data.length - 2)).drop 1)
    match find_correct_comma temp with
    | none => none
    | some lst => (rsFragsLoop prev (rn + 1) lst).map .list
  else
    -- temp_string = string.rsplit(":", 1)
    match pyrsplit1 s ':' with
    | [] => none
    | t0 :: restParts =>
      if t0.data.isEmpty then none   -- temp_string[0][0] raises IndexError
      else
        -- if temp_string[0][0] + temp_string[0][-1] == "()": strip the pair
        let t0s :=
          if t0.data.head? == some '(' && t0.data.getLast? == some ')' then
            String.mk ((t0.data.take (t0.data.length - 1)).drop 1)
          else t0
        match find_correct_comma t0s with
        | none => none
        | some lst =>
          (rsFragsLoop prev (rn + 1) lst).map fun children =>
            .list (.list children :: restParts.map .str)

/-- `read_string` with explicit nesting fuel. -/
def read_string : ℕ → String → ℕ → Option PyVal
  | 0 => fun _ _ => none
  | fuel + 1 => rsLevel (read_string fuel)

/-! ## `format_list` (the tree normalizer) -/

/-- One pass of `format_list` over the entries of the input list; `prev`
normalizes a nested list at one fuel level down.  A list entry whose
first element is a string becomes a tuple as-is; a list entry whose first
element is not a string is recursively normalized; non-list entries are
unchanged; `element[0]` of an empty list raises `IndexError`. -/
def fmtElemB (prev : List PyVal → Option (List PyVal)) : PyVal → Option PyVal
  | .list [] => none
  | .list (x :: xs) =>
    match x with
    | .str _ => some (.tuple (x :: xs))
    | _ => (prev (x :: xs)).map .tuple
  | v => some v

/-- The per-entry pass of `format_list` over a list (`prev` normalizes a
nested list one fuel level down). -/
def fmtLoop (prev : List PyVal → Option (List PyVal)) :
    List PyVal → Option (List PyVal)
  | [] => some []
  | e :: rest => do
    let v ← fmtElemB prev e
    let vs ← fmtLoop prev rest
    pure (v :: vs)

/-- The entry-rewriting pass of `format_list`, fueled by nesting depth. -/
def fmtList : ℕ → List PyVal → Option (List PyVal)
  | 0 => fun _ => none
  | fuel + 1 => fmtLoop (fmtList fuel)

/-- `format_list`: rewrite the entries, then `tuple(inp_list)`. -/
def format_list (fuel : ℕ) (v : PyVal) : Option PyVal :=
  match v with
  | .list l => (fmtList fuel l).map .tuple
  | .tuple l => (fmtList fuel l).map .tuple
  | .str s => some (.tuple (s.data.map fun c => .str (String.mk [c])))

/-- The parse pipeline `format_list(read_string(data))` used by
`read_tree`, with fuel `|s| + 1` (nesting depth is at most the length). -/
def parsePipeline (s : String) : Option PyVal :=
  (read_string (s.data.length + 1) s 0).bind (format_list (s.data.length + 1))

/-! ## `read_leaves` (the leaf enumerator) -/

/-- The loop of `read_leaves` over the entries of a tuple: an entry whose
`element[0]` is a string contributes that string; an entry whose
`element[0]` is a tuple contributes its recursive leaves (via `prev`, the
enumerator one fuel level down); any other `element[0]` contributes
nothing; `element[0]` of an empty entry raises `IndexError`. -/
def leavesLoop (prev : List PyVal → Option (List String)) :
    List PyVal → Option (List String)
  | [] => some []
  | e :: rest =>
    match eHead e with
    | none => none
    | some (.str nm) => (leavesLoop prev rest).map (nm :: ·)
    | some (.tuple l2) => do
        let sub ← prev l2
        let r ← leavesLoop prev rest
        pure (sub ++ r)
    | some (.list _) => leavesLoop prev rest

/-- The tuple-walking part of `read_leaves`, fueled by nesting depth. -/
def leavesLevel : ℕ → List PyVal → Option (List String)
  | 0 => fun _ => none
  | fuel + 1 => leavesLoop (leavesLevel fuel)

/-- `read_leaves`: a bare string is a trivial single-leaf tree; a
tuple/list is walked entry by entry. -/
def read_leaves (fuel : ℕ) (v : PyVal) : Option (List String) :=
  match v with
  | .str s => some [s]
  | .tuple l => leavesLevel fuel l
  | .list l => leavesLevel fuel l

/-! ## The `Tree` class -/

/-- The `Tree` class: `tree` (the nested tuple or trivial string),
`leaves` (cached at construction), `name`, and `clades` (absent, i.e.
`none`, until `find_clades` has been called). -/
inductive Tree where
  | mk (tree : PyVal) (leaves : List String) (name : String)
      (clades : Option (List Tree)) : Tree

/-- The `tree` attribute. -/
def Tree.tree : Tree → PyVal
  | .mk t _ _ _ => t

/-- The `leaves` attribute. -/
def Tree.leaves : Tree → List String
  | .mk _ l _ _ => l

/-- The `name` attribute. -/
def Tree.name : Tree → String
  | .mk _ _ n _ => n

/-- The `clades` attribute (as an `Option`: `none` = not yet set). -/
def Tree.clades : Tree → Option (List Tree)
  | .mk _ _ _ c => c

/-- `Tree.__init__`: a string is kept as the trivial tree (there is no
file system in the embedding, so `os.path.isfile` is false), a tuple is
kept as the tree, and any other input fails construction (the object
ends up without a `tree` attribute and `self.read_leaves()` raises).
`leaves` is computed by `read_leaves` at construction. -/
def Tree.make (fuel : ℕ) (raw : PyVal) (name : String) : Option Tree :=
  match raw with
  | .list _ => none
  | v => (read_leaves fuel v).map fun ls => .mk v ls name none

/-! ## `recur_clades` (the clade decomposer) -/

/-- The clade name `"Clade_%s" % k`. -/
def cladeName (k : ℕ) : String := "Clade_" ++ toString k

/-- The loop of `recur_clades` over `tree_tup`, at one recursion level.
`fuel` is the fuel available for nested work (building a clade `Tree`
or recursing into a branch, both via one level down); `prev` is
`recur_clades`' walk one fuel level down; `n` is
`n_clades + len(CLADES)` so far.

Per element: `element_distance = float(element[-1]) + distance`, where a
`ValueError` (non-numeric string) is caught and makes the element skipped
(`element_distance = None` is falsy), a non-string `element[-1]` is an
uncaught `TypeError`, and a missing `element[-1]` an uncaught
`IndexError`.  A truthy distance `≥ target` emits the element's content
as a clade `Tree` named `Clade_(n+1)` (strings and tuples only); a truthy
distance `< target` recurses into a non-string content; a falsy distance
(exactly `0.0`) skips the element. -/
def cladeLoop (fuel : ℕ) (prev : List PyVal → PyFloat → PyFloat → ℕ → Option (List Tree)) :
    List PyVal → PyFloat → PyFloat → ℕ → Option (List Tree)
  | [], _, _, _ => some []
  | e :: rest, dist, target, n =>
    match eLast e with
    | none => none
    | some (.str s) =>
      match parseFloat s with
      | none => cladeLoop fuel prev rest dist target n
      | some q =>
        let ed := q.add dist
        if ed.isZero then cladeLoop fuel prev rest dist target n
        else if target.le ed then
          match eHead e with
          | some (.str nm) =>
            (Tree.make fuel (.str nm) (cladeName (n + 1))).bind fun c =>
              (cladeLoop fuel prev rest dist target (n + 1)).map (c :: ·)
          | some (.tuple l2) =>
            (Tree.make fuel (.tuple l2) (cladeName (n + 1))).bind fun c =>
              (cladeLoop fuel prev rest dist target (n + 1)).map (c :: ·)
          | some (.list _) => cladeLoop fuel prev rest dist target n
          | none => none
        else
          match eHead e with
          | some (.str _) => cladeLoop fuel prev rest dist target n
          | some (.tuple l2) =>
            (prev l2 ed target n).bind fun sub =>
              (cladeLoop fuel prev rest dist target (n + sub.length)).map (sub ++ ·)
          | some (.list l2) =>
            (prev l2 ed target n).bind fun sub =>
              (cladeLoop fuel prev rest dist target (n + sub.length)).map (sub ++ ·)
          | none => none
    | some _ => none

/-- The element-list walk of `recur_clades`, fueled by nesting depth. -/
def cladeGo : ℕ → List PyVal → PyFloat → PyFloat → ℕ → Option (List Tree)
  | 0 => fun _ _ _ _ => none
  | fuel + 1 => cladeLoop fuel (cladeGo fuel)

/-- `recur_clades(tree_tup, distance, target_distance, n_clades)`
(the `recursion_number` parameter only feeds logging and is dropped). -/
def recur_clades (fuel : ℕ) (tup : PyVal) (dist target : PyFloat) (n : ℕ) :
    Option (List Tree) :=
  cladeGo fuel (pyElems tup) dist target n

/-- `Tree.find_clades(distance)`: runs `recur_clades(self.tree,
target_distance=distance)` (starting distance `0.0`, `n_clades = 0`),
stores the result in `self.clades` and returns it.  The mutation of
`self` is modelled by returning the updated object alongside. -/
def Tree.find_clades (fuel : ℕ) (t : Tree) (distance : PyFloat) :
    Option (List Tree × Tree) :=
  (recur_clades fuel t.tree pyZero distance 0).map fun cl =>
    (cl, .mk t.tree t.leaves t.name (some cl))

/-! ## Statement-side definitions used by the claims -/

/-- The tree of the concrete scenario `"(A:0.1,(B:0.2,C:0.3):0.4);"`:
root children `("A","0.1")` and `((("B","0.2"),("C","0.3")),"0.4")`. -/
def c1tree : PyVal :=
  .tuple [.tuple [.str "A", .str "0.1"],
          .tuple [.tuple [.tuple [.str "B", .str "0.2"], .tuple [.str "C", .str "0.3"]],
                  .str "0.4"]]

/-- The parse of the counterexample input `"(A:0.0,B:1.0);"`. -/
def cex2tree : PyVal :=
  .tuple [.tuple [.str "A", .str "0.0"], .tuple [.str "B", .str "1.0"]]

/-- The parse of the counterexample input `"(A,B:1);"` — note the
one-element record `("A",)` for the colon-less leaf fragment. -/
def cex4tree : PyVal :=
  .tuple [.tuple [.str "A"], .tuple [.str "B", .str "1"]]

/-- Is there a comma in `cs` whose preceding prefix (with `o` earlier
`'('` and `c` earlier `')'` already seen) has equal parenthesis counts?
A single-pass characterization of "a top-level comma exists", written
independently of `find_correct_comma`. -/
def hasTopCommaAux : List Char → ℕ → ℕ → Bool
  | [], _, _ => false
  | ch :: rest, o, c =>
    (ch == ',' && o == c) ||
    hasTopCommaAux rest (if ch = '(' then o + 1 else o) (if ch = ')' then c + 1 else c)

/-- "The parenthesis counts never balance": after every nonempty prefix
(continuing from `o` earlier `'('` and `c` earlier `')'`), the counts of
`'('` and `')'` differ — an unterminated group. -/
def neverBalAux : List Char → ℕ → ℕ → Bool
  | [], _, _ => true
  | ch :: rest, o, c =>
    let o2 := if ch = '(' then o + 1 else o
    let c2 := if ch = ')' then c + 1 else c
    (!(o2 == c2)) && neverBalAux rest o2 c2

/-- Modelled from the spec's words for the splitter contract: walk the
fragment once, splitting at exactly those commas whose preceding prefix
has equal counts of `'('` and `')'` (counts continued from `o`, `c`),
keeping empty substrings; `acc` holds the current piece reversed. -/
def splitSpecAux : List Char → ℕ → ℕ → List Char → List String
  | [], _, _, acc => [String.mk acc.reverse]
  | ch :: rest, o, c, acc =>
    if ch == ',' && o == c then
      String.mk acc.reverse :: splitSpecAux rest o c []
    else
      splitSpecAux rest (if ch = '(' then o + 1 else o)
        (if ch = ')' then c + 1 else c) (ch :: acc)

/-- Modelled from the spec's words: the ordered substrings obtained by
splitting at exactly the commas whose preceding prefix within the
fragment has equal counts of `'('` and `')'`, including the (possibly
empty) substring before the first such comma and after the last. -/
def splitSpec (s : String) : List String := splitSpecAux s.data 0 0 []

/-- `topCommaLocs` generalized by starting counts `o`, `c` (used to
relate the position-filter implementation to the single-pass spec). -/
def locsAux (cs : List Char) (o c : ℕ) : List ℕ :=
  (List.range cs.length).filter fun i =>
    cs.get? i == some ',' &&
      (o + (cs.take i).count '(' == c + (cs.take i).count ')')


/-- Well-formedness of one parsed element for the clade walk *and* the
leaf enumerator: a nonempty tuple whose `element[-1]` is a string (a
branch-length/leaf text, so `float()` gets a string) and whose
`element[0]` is a leaf name or a children tuple that is recursively
well-formed (via `recC`). -/
def wfElem (recC : List PyVal → Bool) (e : PyVal) : Bool :=
  match e with
  | .tuple el =>
    (match el.getLast? with
     | some (.str _) => true
     | _ => false) &&
    (match el.head? with
     | some (.str _) => true
     | some (.tuple c) => recC c
     | _ => false)
  | _ => false

/-- Well-formedness of a sibling list, fueled by nesting depth. -/
def wfList : ℕ → List PyVal → Bool
  | 0 => fun _ => false
  | fuel + 1 => fun l => l.all (wfElem (wfList fuel))

/-- A parsed element all of whose branch lengths are numeric and
positive: `element[-1]` is a string parsing to a positive fraction, and
the content is a leaf name or a recursively positive children tuple. -/
def posElem (recC : List PyVal → Bool) (e : PyVal) : Bool :=
  match e with
  | .tuple el =>
    (match el.getLast? with
     | some (.str s) =>
       match parseFloat s with
       | some q => decide (0 < q.num)
       | none => false
     | _ => false) &&
    (match el.head? with
     | some (.str _) => true
     | some (.tuple c) => recC c
     | _ => false)
  | _ => false

/-- All branch lengths numeric and positive, fueled by nesting depth. -/
def posList : ℕ → List PyVal → Bool
  | 0 => fun _ => false
  | fuel + 1 => fun l => l.all (posElem (posList fuel))

/-- The shape invariant the parser guarantees, as needed by the clade
walk: every element is a tuple whose `element[0]` is a leaf-name string
or a children tuple of recursively clean elements (in particular never a
Python list, and never a bare string element). -/
inductive CleanElem : PyVal → Prop where
  | strHead (nm : String) (tl : List PyVal) : CleanElem (.tuple (.str nm :: tl))
  | tupleHead (c tl : List PyVal) : (∀ e ∈ c, CleanElem e) →
      CleanElem (.tuple (.tuple c :: tl))

/-- The shape of the intermediate values `read_string` produces for one
sibling fragment: a leaf is a nonempty list of strings
(`element.split(":")`), an internal node is a list holding a nonempty
children list (of recursively shaped fragments) followed by at most one
branch-length string. -/
inductive RsElem : PyVal → Prop where
  | leaf (l : List PyVal) : l ≠ [] → (∀ x ∈ l, ∃ s, x = PyVal.str s) →
      RsElem (.list l)
  | internal (children strs : List PyVal) : children ≠ [] →
      (∀ c ∈ children, RsElem c) → (∀ x ∈ strs, ∃ s, x = PyVal.str s) →
      strs.length ≤ 1 → RsElem (.list (.list children :: strs))

/-- The content (`element[0]`) of an element, with a junk default for
the empty case (only used under well-formedness hypotheses). -/
def contentOf (e : PyVal) : PyVal := (eHead e).getD (.str "")

/-- The clades that a threshold `≤ 0` should produce from the root's
immediate children: child `i` (zero-based) becomes one clade holding its
content, named `Clade_(n+i+1)`, with its leaves read at fuel `fuel`. -/
def rootClades (fuel : ℕ) : ℕ → List PyVal → List Tree
  | _, [] => []
  | n, e :: rest =>
    Tree.mk (contentOf e) ((read_leaves fuel (contentOf e)).getD [])
        (cladeName (n + 1)) none ::
      rootClades fuel (n + 1) rest

/-- `Subtree x y`: `x` is `y` itself, or the content of an element of
the children tuple `y`, recursively — the "is a subtree of" relation on
parsed tree values. -/
inductive Subtree : PyVal → PyVal → Prop where
  | refl (x : PyVal) : Subtree x x
  | step {x h : PyVal} {tl l : List PyVal} :
      Subtree x h → PyVal.tuple (h :: tl) ∈ l → Subtree x (.tuple l)

/-! ## Theorems -/

/-- `Tree.make` stores the requested name. -/
theorem Tree.make_name {fuel : ℕ} {raw : PyVal} {nm : String} {t : Tree}
    (h : Tree.make fuel raw nm = some t) : t.name = nm := by
  unfold Tree.make at h
  cases raw with
  | str s => cases hr : read_leaves fuel (.str s) with
    | none => simp [hr] at h
    | some ls => simp [hr] at h; subst h; rfl
  | tuple l => cases hr : read_leaves fuel (.tuple l) with
    | none => simp [hr] at h
    | some ls => simp [hr] at h; subst h; rfl
  | list l => simp at h

/-- `Tree.make` stores the given value as the `tree` attribute. -/
theorem Tree.make_tree {fuel : ℕ} {raw : PyVal} {nm : String} {t : Tree}
    (h : Tree.make fuel raw nm = some t) : t.tree = raw := by
  unfold Tree.make at h
  cases raw with
  | str s => cases hr : read_leaves fuel (.str s) with
    | none => simp [hr] at h
    | some ls => simp [hr] at h; subst h; rfl
  | tuple l => cases hr : read_leaves fuel (.tuple l) with
    | none => simp [hr] at h
    | some ls => simp [hr] at h; subst h; rfl
  | list l => simp at h

/-- `Tree.make` caches exactly `read_leaves` of the stored tree. -/
theorem Tree.make_leaves {fuel : ℕ} {raw : PyVal} {nm : String} {t : Tree}
    (h : Tree.make fuel raw nm = some t) : read_leaves fuel t.tree = some t.leaves := by
  unfold Tree.make at h
  cases raw with
  | str s => cases hr : read_leaves fuel (.str s) with
    | none => simp [hr] at h
    | some ls => simp [hr] at h; subst h; simpa [Tree.tree, Tree.leaves] using hr
  | tuple l => cases hr : read_leaves fuel (.tuple l) with
    | none => simp [hr] at h
    | some ls => simp [hr] at h; subst h; simpa [Tree.tree, Tree.leaves] using hr
  | list l => simp at h

/-- C1: for the input text `"(A:0.1,(B:0.2,C:0.3):0.4);"`, the parse
pipeline (`read_string` then `format_list`) yields the root sequence with
first child the leaf `("A","0.1")` and second child an internal node with
children `("B","0.2")`, `("C","0.3")` and branch-length text `"0.4"`;
`read_leaves` of that tree is exactly `["A","B","C"]`; and `recur_clades`
with target distance `0.5` returns exactly two clades, in order: a
single-leaf clade containing `B` named `"Clade_1"` and a single-leaf
clade containing `C` named `"Clade_2"`. -/
theorem c1_concrete_scenario :
    parsePipeline "(A:0.1,(B:0.2,C:0.3):0.4);" = some c1tree ∧
    read_leaves 30 c1tree = some ["A", "B", "C"] ∧
    recur_clades 30 c1tree pyZero ⟨1, 2⟩ 0 =
      some [.mk (.str "B") ["B"] "Clade_1" none, .mk (.str "C") ["C"] "Clade_2" none] :=
  ⟨rfl, rfl, rfl⟩

/-- C4 counterexample: the input `"(A,B:1);"` contains the colon-less
leaf fragment `"A"`, yet the parse does **not** fail: it returns a tree
containing that fragment as the one-element record `("A",)`. -/
theorem c4_counterexample :
    parsePipeline "(A,B:1);" = some cex4tree ∧ (parsePipeline "(A,B:1);").isSome = true :=
  ⟨rfl, rfl⟩

/-- C4 amended: a leaf fragment with no colon does not make the parse
fail: `split(":")` on a colon-less fragment returns the one-element list
holding the whole fragment (so the leaf becomes the record `(name,)`),
and e.g. `"(A,B:1);"` parses successfully to a tree containing `("A",)`. -/
theorem c4_amended :
    (∀ cs : List Char, ':' ∉ cs → splitChar ':' cs = [cs]) ∧
    parsePipeline "(A,B:1);" = some cex4tree := by
  constructor
  · intro cs h
    induction cs with
    | nil => rfl
    | cons c rest ih =>
      have hc : c ≠ ':' := fun hc => h (hc ▸ List.mem_cons_self c rest)
      have hrest : ':' ∉ rest := fun hr => h (List.mem_cons_of_mem c hr)
      simp [splitChar, hc, ih hrest]
  · rfl

/-- Closed witness for the amended C4 at a concrete colon-less fragment. -/
theorem c4_amended_witness :
    splitChar ':' ['A'] = [['A']] ∧ parsePipeline "(A,B:1);" = some cex4tree :=
  ⟨c4_amended.1 ['A'] (by decide), c4_amended.2⟩

/-- C9: for every successfully constructed `Tree`, the cached `leaves`
attribute equals `read_leaves` of its `tree` attribute, and this equality
is preserved by `find_clades` (which never mutates `tree` or `leaves`). -/
theorem c9_leaves_invariant {fuel : ℕ} {raw : PyVal} {nm : String} {t : Tree}
    (h : Tree.make fuel raw nm = some t) :
    read_leaves fuel t.tree = some t.leaves ∧
    ∀ fuel2 d cl t2, Tree.find_clades fuel2 t d = some (cl, t2) →
      t2.tree = t.tree ∧ t2.leaves = t.leaves ∧ read_leaves fuel t2.tree = some t2.leaves := by
  refine ⟨Tree.make_leaves h, ?_⟩
  intro fuel2 d cl t2 h2
  unfold Tree.find_clades at h2
  cases hr : recur_clades fuel2 t.tree pyZero d 0 with
  | none => rw [hr] at h2; simp at h2
  | some L =>
    rw [hr] at h2
    have ht2 : t2 = Tree.mk t.tree t.leaves t.name (some L) := by
      have h3 : (L, Tree.mk t.tree t.leaves t.name (some L)) = (cl, t2) :=
        Option.some.inj h2
      exact (congrArg Prod.snd h3).symm
    refine ⟨by rw [ht2]; rfl, by rw [ht2]; rfl, ?_⟩
    rw [ht2]
    show read_leaves fuel t.tree = some t.leaves
    exact Tree.make_leaves h

/-- Closed witness for C9 on a concrete `Tree`. -/
theorem c9_leaves_invariant_witness :
    read_leaves 1 (Tree.mk (.str "A") ["A"] "t" none).tree =
      some (Tree.mk (.str "A") ["A"] "t" none).leaves ∧
    ∀ fuel2 d cl t2,
      Tree.find_clades fuel2 (Tree.mk (.str "A") ["A"] "t" none) d = some (cl, t2) →
      t2.tree = (Tree.mk (PyVal.str "A") ["A"] "t" none).tree ∧
      t2.leaves = (Tree.mk (PyVal.str "A") ["A"] "t" none).leaves ∧
      read_leaves 1 t2.tree = some t2.leaves :=
  @c9_leaves_invariant 1 (.str "A") "t" (Tree.mk (.str "A") ["A"] "t" none) rfl

theorem locsAux_zero (cs : List Char) : locsAux cs 0 0 = topCommaLocs cs := by
  unfold locsAux topCommaLocs parenBalancedAt
  simp

theorem locsAux_cons (ch : Char) (rest : List Char) (o c : ℕ) :
    locsAux (ch :: rest) o c =
      (if ch == ',' && o == c then [0] else []) ++
        (locsAux rest (if ch = '(' then o + 1 else o) (if ch = ')' then c + 1 else c)).map (· + 1) := by
  unfold locsAux
  rw [List.length_cons, List.range_succ_eq_map, List.filter_cons]
  have h1 : ((ch :: rest).get? 0 == some ',' &&
      (o + ((ch :: rest).take 0).count '(' == c + ((ch :: rest).take 0).count ')')) =
      (ch == ',' && o == c) := by
    simp [List.get?]
  rw [h1]
  have h2 : ∀ i : ℕ,
      ((ch :: rest).get? (Nat.succ i) == some ',' &&
        (o + ((ch :: rest).take (Nat.succ i)).count '(' ==
          c + ((ch :: rest).take (Nat.succ i)).count ')')) =
      (rest.get? i == some ',' &&
        ((if ch = '(' then o + 1 else o) + (rest.take i).count '(' ==
          (if ch = ')' then c + 1 else c) + (rest.take i).count ')')) := by
    intro i
    simp only [List.get?, List.take_succ_cons, List.count_cons]
    congr 1
    by_cases ha : ch = '(' <;> by_cases hb : ch = ')' <;> simp [ha, hb] <;>
      first
      | rfl
      | omega
  have h3 : List.filter
      (fun i => (ch :: rest).get? i == some ',' &&
        (o + ((ch :: rest).take i).count '(' == c + ((ch :: rest).take i).count ')'))
      ((List.range rest.length).map Nat.succ) =
      ((List.range rest.length).filter fun i =>
        rest.get? i == some ',' &&
          ((if ch = '(' then o + 1 else o) + (rest.take i).count '(' ==
            (if ch = ')' then c + 1 else c) + (rest.take i).count ')')).map Nat.succ := by
    rw [List.filter_map]
    congr 1
    refine List.filter_congr ?_
    intro i hi
    exact h2 i
  rw [h3]
  by_cases hc : (ch == ',' && o == c) = true
  · rw [if_pos hc, if_pos hc]
    rfl
  · rw [if_neg hc, if_neg hc]
    rfl


theorem hasTop_iff (cs : List Char) : ∀ o c, hasTopCommaAux cs o c = true ↔ locsAux cs o c ≠ [] := by
  induction cs with
  | nil => intro o c; simp [hasTopCommaAux, locsAux]
  | cons ch rest ih =>
    intro o c
    rw [hasTopCommaAux, locsAux_cons]
    by_cases hc : (ch == ',' && o == c) = true
    · simp [hc]
    · simp only [hc, Bool.false_or, if_neg hc, List.nil_append]
      rw [ih]
      simp

theorem neverBal_locs (cs : List Char) : ∀ o c, neverBalAux cs o c = true → locsAux cs o c = [] := by
  induction cs with
  | nil => intro o c _; simp [locsAux]
  | cons ch rest ih =>
    intro o c h
    simp only [neverBalAux] at h
    rcases Bool.and_eq_true_iff.mp h with ⟨h1, h2⟩
    rw [locsAux_cons]
    have hc : (ch == ',' && o == c) = false := by
      by_cases hcomma : ch = ','
      · subst hcomma
        simp at h1
        simp [h1]
      · simp [hcomma]
    rw [if_neg (by simp [hc]), ih _ _ h2]
    simp


theorem fccSlices_shift (ch : Char) (rest : List Char) :
    ∀ ps : List ℕ, fccSlices (ch :: rest) (ps.map (· + 1)) = fccSlices rest ps := by
  intro ps
  induction ps with
  | nil => rfl
  | cons p qs ih =>
    cases qs with
    | nil => simp [fccSlices]
    | cons q r =>
      simp only [List.map_cons] at ih ⊢
      rw [fccSlices, fccSlices, ih]
      have h1 : q + 1 - (p + 1) - 1 = q - p - 1 := by omega
      rw [h1, List.drop_succ_cons]

theorem splitSpecAux_eq (cs : List Char) : ∀ o c acc,
    splitSpecAux cs o c acc =
      match locsAux cs o c with
      | [] => [String.mk (acc.reverse ++ cs)]
      | p :: r => String.mk (acc.reverse ++ cs.take p) :: fccSlices cs (p :: r) := by
  induction cs with
  | nil => intro o c acc; simp [splitSpecAux, locsAux]
  | cons ch rest ih =>
    intro o c acc
    rw [splitSpecAux, locsAux_cons]
    cases hb : (ch == ',' && o == c) with
    | true =>
      rw [if_pos (rfl : true = true)]
      have hch : ch = ',' := by
        rcases Bool.and_eq_true_iff.mp hb with ⟨h1, _⟩
        exact beq_iff_eq.mp h1
      have ho : (if ch = '(' then o + 1 else o) = o := by subst hch; simp
      have hco : (if ch = ')' then c + 1 else c) = c := by subst hch; simp
      rw [ho, hco, ih o c []]
      cases hl : locsAux rest o c with
      | nil => simp [fccSlices]
      | cons p r =>
        have hshift := fccSlices_shift ch rest (p :: r)
        simp only [List.map_cons] at hshift ⊢
        simp
        rw [fccSlices, hshift]
        simp
    | false =>
      rw [if_neg (show ¬(false = true) by simp)]
      rw [ih (if ch = '(' then o + 1 else o) (if ch = ')' then c + 1 else c) (ch :: acc)]
      cases hl : locsAux rest (if ch = '(' then o + 1 else o) (if ch = ')' then c + 1 else c) with
      | nil => simp
      | cons p r =>
        have hshift := fccSlices_shift ch rest (p :: r)
        simp only [List.map_cons] at hshift ⊢
        simp [hshift, List.take_succ_cons]

theorem topCommaLocs_of_noTop {s : String} (h : hasTopCommaAux s.data 0 0 = false) :
    topCommaLocs s.data = [] := by
  rw [← locsAux_zero]
  by_contra hne
  rw [(hasTop_iff s.data 0 0).mpr hne] at h
  exact Bool.true_eq_false.mp h

/-- C5: the unterminated input `"(A,B"` makes the parse fail (no tree is
returned); and in general the splitter fails — returning `none`, the
`IndexError` the parser does not catch — whenever the fragment has no
top-level comma (no comma whose prefix has equal parenthesis counts) or
its parenthesis counts never balance (an unterminated group). -/
theorem c5_malformed_rejection :
    parsePipeline "(A,B" = none ∧
    (∀ s : String, hasTopCommaAux s.data 0 0 = false → find_correct_comma s = none) ∧
    (∀ s : String, neverBalAux s.data 0 0 = true → find_correct_comma s = none) := by
  refine ⟨rfl, ?_, ?_⟩
  · intro s h
    unfold find_correct_comma
    rw [topCommaLocs_of_noTop h]
  · intro s h
    unfold find_correct_comma
    have h2 := neverBal_locs s.data 0 0 h
    rw [locsAux_zero] at h2
    rw [h2]

/-- Closed witness for C5 at concrete malformed fragments. -/
theorem c5_malformed_rejection_witness :
    find_correct_comma "A" = none ∧ find_correct_comma "(A,B" = none :=
  ⟨c5_malformed_rejection.2.1 "A" (by decide),
   c5_malformed_rejection.2.2 "(A,B" (by decide)⟩

/-- C6: for every string containing at least one top-level comma,
`find_correct_comma` returns the ordered substrings obtained by splitting
at exactly those commas whose preceding prefix has equal counts of `'('`
and `')'` (including empty first/last substrings, as expressed by the
spec-side single-pass splitter `splitSpec`); in particular the body
`"A,B,(C,D)"` splits into `["A", "B", "(C,D)"]`, with no split at the
nested comma. -/
theorem c6_splitter_contract :
    (∀ s : String, hasTopCommaAux s.data 0 0 = true →
      find_correct_comma s = some (splitSpec s)) ∧
    find_correct_comma "A,B,(C,D)" = some ["A", "B", "(C,D)"] := by
  refine ⟨?_, rfl⟩
  intro s h
  have hne := (hasTop_iff s.data 0 0).mp h
  rw [locsAux_zero] at hne
  unfold find_correct_comma splitSpec
  rw [splitSpecAux_eq, locsAux_zero]
  cases hl : topCommaLocs s.data with
  | nil => exact absurd hl hne
  | cons p r => simp

/-- Closed witness for C6 at a concrete splittable string. -/
theorem c6_splitter_contract_witness :
    find_correct_comma "A,B" = some (splitSpec "A,B") :=
  c6_splitter_contract.1 "A,B" (by decide)


/-- `PyFloat.add` multiplies the denominators. -/
theorem PyFloat.add_denPos {a b : PyFloat} (ha : 0 < a.den) (hb : 0 < b.den) :
    0 < (a.add b).den := Nat.mul_pos ha hb

/-- `PyFloat.add` denotes rational addition (positive denominators). -/
theorem PyFloat.toRat_add {a b : PyFloat} (ha : 0 < a.den) (hb : 0 < b.den) :
    (a.add b).toRat = a.toRat + b.toRat := by
  unfold PyFloat.toRat PyFloat.add
  have ha2 : ((a.den : ℚ)) ≠ 0 := Nat.cast_ne_zero.mpr ha.ne'
  have hb2 : ((b.den : ℚ)) ≠ 0 := Nat.cast_ne_zero.mpr hb.ne'
  field_simp
  try push_cast
  try ring

/-- Truthiness is exact: a positive-denominator fraction is `isZero` iff
it denotes `0`. -/
theorem PyFloat.isZero_iff_toRat {a : PyFloat} (ha : 0 < a.den) :
    a.isZero = true ↔ a.toRat = 0 := by
  unfold PyFloat.isZero PyFloat.toRat
  have ha2 : ((a.den : ℚ)) ≠ 0 := Nat.cast_ne_zero.mpr ha.ne'
  rw [beq_iff_eq, div_eq_zero_iff]
  constructor
  · intro h; left; exact_mod_cast h
  · rintro (h | h)
    · exact_mod_cast h
    · exact absurd h ha2

/-- Comparison is exact: cross-multiplied `le` agrees with `≤` on the
denoted rationals (positive denominators). -/
theorem PyFloat.le_iff_toRat {a b : PyFloat} (ha : 0 < a.den) (hb : 0 < b.den) :
    a.le b = true ↔ a.toRat ≤ b.toRat := by
  unfold PyFloat.le PyFloat.toRat
  have ha2 : (0 : ℚ) < (a.den : ℚ) := by exact_mod_cast ha
  have hb2 : (0 : ℚ) < (b.den : ℚ) := by exact_mod_cast hb
  rw [decide_eq_true_eq, div_le_div_iff₀ ha2 hb2]
  constructor
  · intro h; exact_mod_cast h
  · intro h; exact_mod_cast h

/-- `parseMant` only builds positive denominators. -/
theorem parseMant_denPos {cs : List Char} {q : PyFloat} (h : parseMant cs = some q) :
    0 < q.den := by
  unfold parseMant at h
  dsimp only at h
  split at h
  · split at h
    · exact absurd h (by simp)
    · rw [← Option.some.inj h]
      exact Nat.one_pos
  · split at h
    · rw [← Option.some.inj h]
      exact Nat.pos_pow_of_pos _ (by norm_num)
    · exact absurd h (by simp)
  · exact absurd h (by simp)

/-- `scale10` preserves denominator positivity. -/
theorem PyFloat.scale10_denPos {a : PyFloat} {e : ℤ} (ha : 0 < a.den) :
    0 < (a.scale10 e).den := by
  unfold PyFloat.scale10
  by_cases he : 0 ≤ e
  · simpa [he] using ha
  · simp only [he, if_false]
    exact Nat.mul_pos ha (Nat.pos_pow_of_pos _ (by norm_num))

/-- `neg` preserves the denominator. -/
theorem PyFloat.neg_den (a : PyFloat) : a.neg.den = a.den := rfl

/-- Every fraction built by `parseFloat` has a positive denominator. -/
theorem parseFloat_denPos {s : String} {q : PyFloat} (h : parseFloat s = some q) :
    0 < q.den := by
  unfold parseFloat at h
  dsimp only at h
  split at h
  · cases hm : parseMant ((match stripWS s.data with
      | '+' :: r => r
      | '-' :: r => r
      | r => r).takeWhile fun c => c ≠ 'e' && c ≠ 'E') with
    | none => rw [hm] at h; exact absurd h (by simp)
    | some m =>
      rw [hm] at h
      simp only [Option.map_some'] at h
      have hq : q = if (match stripWS s.data with
          | '-' :: _ => true
          | _ => false) then m.neg else m := (Option.some.inj h).symm
      have hm2 := parseMant_denPos hm
      rw [hq]
      by_cases hn : (match stripWS s.data with
          | '-' :: _ => true
          | _ => false) = true
      · simpa [hn, PyFloat.neg_den] using hm2
      · simpa [hn] using hm2
  · rcases Option.bind_eq_some.mp h with ⟨m, hm, h2⟩
    rcases Option.bind_eq_some.mp h2 with ⟨ex, he, h3⟩
    have hq : q = (if (match stripWS s.data with
        | '-' :: _ => true
        | _ => false) = true then (m.scale10 ex).neg else m.scale10 ex) := by
      have := Option.some.inj h3
      exact this.symm
    have hm2 : 0 < (m.scale10 ex).den := PyFloat.scale10_denPos (parseMant_denPos hm)
    rw [hq]
    by_cases hn : (match stripWS s.data with
        | '-' :: _ => true
        | _ => false) = true
    · simpa [hn, PyFloat.neg_den] using hm2
    · simpa [hn] using hm2


/-- Processing a sibling list element by element only depends on the tail
through the results of the same walk: if two tails agree for every
running clade count, consing the same element keeps them equal. -/
theorem cladeLoop_cons_congr {fuel : ℕ}
    {prev : List PyVal → PyFloat → PyFloat → ℕ → Option (List Tree)}
    {d t : PyFloat} {rest1 rest2 : List PyVal} (y : PyVal)
    (h : ∀ n, cladeLoop fuel prev rest1 d t n = cladeLoop fuel prev rest2 d t n) :
    ∀ n, cladeLoop fuel prev (y :: rest1) d t n = cladeLoop fuel prev (y :: rest2) d t n := by
  intro n
  rw [cladeLoop, cladeLoop]
  cases hy : eLast y with
  | none => rfl
  | some v =>
    cases v with
    | str s =>
      dsimp only
      cases hq : parseFloat s with
      | none => exact h n
      | some q =>
        dsimp only
        by_cases hz : (q.add d).isZero = true
        · simp only [hz, if_true]
          exact h n
        · simp only [hz, if_false]
          by_cases hle : t.le (q.add d) = true
          · simp only [hle, if_true]
            cases hh : eHead y with
            | none => rfl
            | some w =>
              cases w with
              | str nm => simp only [h]
              | tuple l2 => simp only [h]
              | list l2 => exact h n
          · simp only [hle, if_false]
            cases hh : eHead y with
            | none => rfl
            | some w =>
              cases w with
              | str nm => exact h n
              | tuple l2 => simp only [h]
              | list l2 => simp only [h]
    | tuple l2 => rfl
    | list l2 => rfl

/-- An element that the walk skips — its `element[-1]` is a string whose
float conversion fails, or the accumulated distance at it is exactly
`0.0` — can be removed from the sibling list without changing the walk's
result at any clade count. -/
theorem cladeLoop_skip_removal {fuel : ℕ}
    {prev : List PyVal → PyFloat → PyFloat → ℕ → Option (List Tree)}
    {d t : PyFloat} {e : PyVal} {s : String}
    (hE : eLast e = some (.str s))
    (hskip : parseFloat s = none ∨ ∃ q, parseFloat s = some q ∧ (q.add d).isZero = true) :
    ∀ l1 l2 n, cladeLoop fuel prev (l1 ++ e :: l2) d t n = cladeLoop fuel prev (l1 ++ l2) d t n := by
  intro l1
  induction l1 with
  | nil =>
    intro l2 n
    rw [List.nil_append, List.nil_append, cladeLoop]
    rw [hE]
    dsimp only
    rcases hskip with hq | ⟨q, hq, hz⟩
    · rw [hq]
    · rw [hq]
      dsimp only
      simp only [hz, if_true]
  | cons y l1 ih =>
    intro l2 n
    rw [List.cons_append, List.cons_append]
    exact cladeLoop_cons_congr y (fun m => ih l2 m) n

/-- C10: for every tree tuple, starting distance and threshold, a child
whose computed accumulated distance (starting distance plus parsed
branch length) is exactly `0.0` is treated by `recur_clades` the same as
a branch with unparseable length: it is neither emitted as a clade (even
when the threshold is `≤ 0`) nor recursed into — the walk behaves
exactly as if the child were absent, so none of its leaves appears in
any returned clade. -/
theorem c10_exact_zero_skipped {fuel : ℕ} {d t : PyFloat} {e : PyVal} {s : String}
    {q : PyFloat} (hE : eLast e = some (.str s)) (hq : parseFloat s = some q)
    (hd : 0 < d.den) (hz : q.toRat + d.toRat = 0) :
    ∀ l1 l2 n, recur_clades fuel (.tuple (l1 ++ e :: l2)) d t n =
      recur_clades fuel (.tuple (l1 ++ l2)) d t n := by
  intro l1 l2 n
  have hqd : 0 < q.den := parseFloat_denPos hq
  have hz2 : (q.add d).isZero = true := by
    rw [PyFloat.isZero_iff_toRat (PyFloat.add_denPos hqd hd), PyFloat.toRat_add hqd hd]
    exact hz
  unfold recur_clades pyElems
  cases fuel with
  | zero => rfl
  | succ fuel => exact cladeLoop_skip_removal hE (Or.inr ⟨q, hq, hz2⟩) l1 l2 n

/-- Closed witness for C10: removing the zero-distance branch
`("A","0.0")` leaves the decomposition unchanged. -/
theorem c10_exact_zero_skipped_witness :
    recur_clades 30 (.tuple [.tuple [.str "A", .str "0.0"], .tuple [.str "B", .str "1.0"]])
        pyZero pyZero 0 =
      recur_clades 30 (.tuple [.tuple [.str "B", .str "1.0"]]) pyZero pyZero 0 :=
  @c10_exact_zero_skipped 30 pyZero pyZero (.tuple [.str "A", .str "0.0"]) "0.0" ⟨0, 10⟩
    rfl rfl (by decide) (by norm_num [PyFloat.toRat, pyZero])
    [] [.tuple [.str "B", .str "1.0"]] 0


/-- For a `.tuple` element, `eLast` is the tuple's last entry. -/
theorem eLast_tuple (el : List PyVal) : eLast (.tuple el) = el.getLast? := rfl

/-- For a `.tuple` element, `eHead` is the tuple's first entry. -/
theorem eHead_tuple (el : List PyVal) : eHead (.tuple el) = el.head? := rfl

/-- One level of the leaf enumerator cannot raise on well-formed
elements, given that the level below cannot. -/
theorem leavesLoop_isSome {fuel : ℕ}
    (hprev : ∀ l, wfList fuel l = true → (leavesLevel fuel l).isSome = true) :
    ∀ l, l.all (wfElem (wfList fuel)) = true →
      (leavesLoop (leavesLevel fuel) l).isSome = true := by
  intro l hl
  induction l with
  | nil => rfl
  | cons e rest ih =>
    rw [List.all_cons, Bool.and_eq_true_iff] at hl
    rcases hl with ⟨he, hrest⟩
    have ihr := ih hrest
    rw [leavesLoop]
    unfold wfElem at he
    cases e with
    | str s => exact absurd he (by simp)
    | list l2 => exact absurd he (by simp)
    | tuple el =>
      rcases Bool.and_eq_true_iff.mp he with ⟨_, hh⟩
      rw [eHead_tuple]
      cases hhd : el.head? with
      | none => rw [hhd] at hh; exact absurd hh (by simp)
      | some w =>
        rw [hhd] at hh
        cases w with
        | str nm =>
          dsimp only
          rw [Option.isSome_map']
          exact ihr
        | tuple c =>
          dsimp only
          cases hsub : leavesLevel fuel c with
          | none =>
            have := hprev c hh
            rw [hsub] at this
            exact absurd this (by simp)
          | some sub =>
            cases hr : leavesLoop (leavesLevel fuel) rest with
            | none => rw [hr] at ihr; exact absurd ihr (by simp)
            | some r2 => simp [Option.bind, hr]
        | list l3 => exact absurd hh (by simp)

/-- On a well-formed sibling list the leaf enumerator cannot raise. -/
theorem leavesLevel_isSome :
    ∀ fuel l, wfList fuel l = true → (leavesLevel fuel l).isSome = true := by
  intro fuel
  induction fuel with
  | zero => intro l h; exact absurd h (by simp [wfList])
  | succ fuel ih =>
    intro l h
    rw [wfList] at h
    dsimp only at h
    rw [leavesLevel]
    exact leavesLoop_isSome ih l h


/-- One level of the clade walk cannot raise on well-formed elements
(every length slot is text), given that the walk below cannot. -/
theorem cladeLoop_isSome {fuel : ℕ}
    {prev : List PyVal → PyFloat → PyFloat → ℕ → Option (List Tree)}
    (hprev : ∀ l d t n, wfList fuel l = true → (prev l d t n).isSome = true) :
    ∀ l, l.all (wfElem (wfList fuel)) = true →
      ∀ d t n, (cladeLoop fuel prev l d t n).isSome = true := by
  intro l hl
  induction l with
  | nil => intro d t n; rfl
  | cons e rest ih =>
    intro d t n
    rw [List.all_cons, Bool.and_eq_true_iff] at hl
    rcases hl with ⟨he, hrest⟩
    have ihr := ih hrest
    rw [cladeLoop]
    unfold wfElem at he
    cases e with
    | str s => exact absurd he (by simp)
    | list l2 => exact absurd he (by simp)
    | tuple el =>
      rcases Bool.and_eq_true_iff.mp he with ⟨hlast, hh⟩
      rw [eLast_tuple]
      cases hld : el.getLast? with
      | none => rw [hld] at hlast; exact absurd hlast (by simp)
      | some w =>
        rw [hld] at hlast
        cases w with
        | tuple l2 => exact absurd hlast (by simp)
        | list l2 => exact absurd hlast (by simp)
        | str s =>
          dsimp only
          cases hq : parseFloat s with
          | none => exact ihr d t n
          | some q =>
            dsimp only
            by_cases hz : (q.add d).isZero = true
            · simp only [hz, if_true]
              exact ihr d t n
            · simp only [hz, if_false]
              by_cases hle : t.le (q.add d) = true
              · simp only [hle, if_true]
                rw [eHead_tuple]
                cases hhd : el.head? with
                | none => rw [hhd] at hh; exact absurd hh (by simp)
                | some w2 =>
                  rw [hhd] at hh
                  cases w2 with
                  | list l3 => exact absurd hh (by simp)
                  | str nm =>
                    cases hr : cladeLoop fuel prev rest d t (n + 1) with
                    | none =>
                      have := ihr d t (n + 1)
                      rw [hr] at this
                      exact absurd this (by simp)
                    | some L2 =>
                      simp [Tree.make, read_leaves, Option.bind, hr]
                  | tuple c =>
                    have hmk : (Tree.make fuel (.tuple c) (cladeName (n + 1))).isSome = true := by
                      unfold Tree.make
                      have := leavesLevel_isSome fuel c hh
                      cases hlv : leavesLevel fuel c with
                      | none => rw [hlv] at this; exact absurd this (by simp)
                      | some lv => simp [read_leaves, hlv]
                    cases hmk2 : Tree.make fuel (.tuple c) (cladeName (n + 1)) with
                    | none => rw [hmk2] at hmk; exact absurd hmk (by simp)
                    | some tr =>
                      cases hr : cladeLoop fuel prev rest d t (n + 1) with
                      | none =>
                        have := ihr d t (n + 1)
                        rw [hr] at this
                        exact absurd this (by simp)
                      | some L2 => simp [Option.bind, hmk2, hr]
              · simp only [hle, if_false]
                rw [eHead_tuple]
                cases hhd : el.head? with
                | none => rw [hhd] at hh; exact absurd hh (by simp)
                | some w2 =>
                  rw [hhd] at hh
                  cases w2 with
                  | list l3 => exact absurd hh (by simp)
                  | str nm => exact ihr d t n
                  | tuple c =>
                    have hsub := hprev c (q.add d) t n hh
                    cases hs : prev c (q.add d) t n with
                    | none => rw [hs] at hsub; exact absurd hsub (by simp)
                    | some sub =>
                      cases hr : cladeLoop fuel prev rest d t (n + sub.length) with
                      | none =>
                        have := ihr d t (n + sub.length)
                        rw [hr] at this
                        exact absurd this (by simp)
                      | some L2 => simp [Option.bind, hs, hr]

/-- On a well-formed sibling list the clade walk cannot raise. -/
theorem cladeGo_isSome :
    ∀ fuel l d t n, wfList fuel l = true → (cladeGo fuel l d t n).isSome = true := by
  intro fuel
  induction fuel with
  | zero => intro l d t n h; exact absurd h (by simp [wfList])
  | succ fuel ih =>
    intro l d t n h
    rw [wfList] at h
    dsimp only at h
    rw [cladeGo]
    exact cladeLoop_isSome (fun l2 d2 t2 n2 h2 => ih l2 d2 t2 n2 h2) l h d t n


/-- C7: `recur_clades` never raises because a branch's length text fails
numeric conversion.  (a) On every parsed tree all of whose length slots
hold text (`wfList` — conversion of that text may still fail anywhere),
the walk returns a result for every threshold; (b) a branch whose length
text fails conversion is skipped locally: the decomposition equals that
of the tree with the branch removed, so neither it nor any of its
descendants appears in any returned clade, while all other branches are
decomposed normally (numbering included). -/
theorem c7_conversion_failure_recovered :
    (∀ fuel l d t n, wfList fuel l = true →
      (recur_clades fuel (.tuple l) d t n).isSome = true) ∧
    (∀ fuel d t e s, eLast e = some (.str s) → parseFloat s = none →
      ∀ l1 l2 n, recur_clades fuel (.tuple (l1 ++ e :: l2)) d t n =
        recur_clades fuel (.tuple (l1 ++ l2)) d t n) := by
  constructor
  · intro fuel l d t n h
    exact cladeGo_isSome fuel l d t n h
  · intro fuel d t e s hE hq l1 l2 n
    unfold recur_clades pyElems
    cases fuel with
    | zero => rfl
    | succ fuel => exact cladeLoop_skip_removal hE (Or.inl hq) l1 l2 n

/-- Closed witness for C7: a tree whose only branch has the unparseable
length text `"x"` is decomposed without an error (to no clades), and
removing that branch changes nothing. -/
theorem c7_conversion_failure_recovered_witness :
    (recur_clades 1 (.tuple [.tuple [.str "A", .str "x"]]) pyZero pyZero 0).isSome = true ∧
    recur_clades 1 (.tuple [.tuple [.str "A", .str "x"], .tuple [.str "B", .str "1"]])
        pyZero pyZero 0 =
      recur_clades 1 (.tuple [.tuple [.str "B", .str "1"]]) pyZero pyZero 0 :=
  ⟨c7_conversion_failure_recovered.1 1 [.tuple [.str "A", .str "x"]] pyZero pyZero 0 (by decide),
   c7_conversion_failure_recovered.2 1 pyZero pyZero (.tuple [.str "A", .str "x"]) "x"
     rfl rfl [] [.tuple [.str "B", .str "1"]] 0⟩


/-- One level of the clade walk names its clades `Clade_(n+1)`,
`Clade_(n+2)`, … consecutively in output order, given that the walk
below does the same from any starting count. -/
theorem cladeLoop_names {fuel : ℕ}
    {prev : List PyVal → PyFloat → PyFloat → ℕ → Option (List Tree)}
    (hprev : ∀ l d t n L, prev l d t n = some L →
      ∀ i (h : i < L.length), (L.get ⟨i, h⟩).name = cladeName (n + i + 1)) :
    ∀ l d t n L, cladeLoop fuel prev l d t n = some L →
      ∀ i (h : i < L.length), (L.get ⟨i, h⟩).name = cladeName (n + i + 1) := by
  intro l
  induction l with
  | nil =>
    intro d t n L hL i h
    rw [cladeLoop] at hL
    rw [← Option.some.inj hL] at h
    exact absurd h (by simp)
  | cons e rest ih =>
    intro d t n L hL i h
    rw [cladeLoop] at hL
    revert hL
    cases hE : eLast e with
    | none => intro hL; exact absurd hL (by simp)
    | some v =>
      cases v with
      | tuple l2 => intro hL; exact absurd hL (by simp)
      | list l2 => intro hL; exact absurd hL (by simp)
      | str s =>
        dsimp only
        cases hq : parseFloat s with
        | none => intro hL; exact ih d t n L hL i h
        | some q =>
          dsimp only
          by_cases hz : (q.add d).isZero = true
          · simp only [hz, if_true]
            intro hL
            exact ih d t n L hL i h
          · simp only [hz, Bool.false_eq_true, if_false]
            by_cases hle : t.le (q.add d) = true
            · simp only [hle, if_true]
              cases hh : eHead e with
              | none => intro hL; exact absurd hL (by simp)
              | some w =>
                cases w with
                | list l3 =>
                  intro hL
                  exact ih d t n L hL i h
                | str nm =>
                  intro hL
                  rcases Option.bind_eq_some.mp hL with ⟨c, hc, h2⟩
                  rcases Option.map_eq_some'.mp h2 with ⟨L2, hL2, hLeq⟩
                  subst hLeq
                  cases i with
                  | zero => simpa using Tree.make_name hc
                  | succ i =>
                    have h3 : i < L2.length := by
                      have := h; simp at this; omega
                    have := ih d t (n + 1) L2 hL2 i h3
                    rw [List.get_cons_succ]
                    rw [this]
                    congr 1
                    omega
                | tuple l3 =>
                  intro hL
                  rcases Option.bind_eq_some.mp hL with ⟨c, hc, h2⟩
                  rcases Option.map_eq_some'.mp h2 with ⟨L2, hL2, hLeq⟩
                  subst hLeq
                  cases i with
                  | zero => simpa using Tree.make_name hc
                  | succ i =>
                    have h3 : i < L2.length := by
                      have := h; simp at this; omega
                    have := ih d t (n + 1) L2 hL2 i h3
                    rw [List.get_cons_succ]
                    rw [this]
                    congr 1
                    omega
            · simp only [hle, Bool.false_eq_true, if_false]
              cases hh : eHead e with
              | none => intro hL; exact absurd hL (by simp)
              | some w =>
                cases w with
                | str nm =>
                  intro hL
                  exact ih d t n L hL i h
                | tuple l3 =>
                  intro hL
                  rcases Option.bind_eq_some.mp hL with ⟨sub, hsub, h2⟩
                  rcases Option.map_eq_some'.mp h2 with ⟨L2, hL2, hLeq⟩
                  subst hLeq
                  by_cases hi : i < sub.length
                  · rw [List.get_append i hi]
                    exact hprev l3 (q.add d) t n sub hsub i hi
                  · have hge : sub.length ≤ i := Nat.le_of_not_lt hi
                    have h3 : i - sub.length < L2.length := by
                      have := h; simp at this; omega
                    rw [List.get_append_right sub L2 hge]
                    rw [ih d t (n + sub.length) L2 hL2 (i - sub.length) h3]
                    congr 1
                    omega
                | list l3 =>
                  intro hL
                  rcases Option.bind_eq_some.mp hL with ⟨sub, hsub, h2⟩
                  rcases Option.map_eq_some'.mp h2 with ⟨L2, hL2, hLeq⟩
                  subst hLeq
                  by_cases hi : i < sub.length
                  · rw [List.get_append i hi]
                    exact hprev l3 (q.add d) t n sub hsub i hi
                  · have hge : sub.length ≤ i := Nat.le_of_not_lt hi
                    have h3 : i - sub.length < L2.length := by
                      have := h; simp at this; omega
                    rw [List.get_append_right sub L2 hge]
                    rw [ih d t (n + sub.length) L2 hL2 (i - sub.length) h3]
                    congr 1
                    omega

/-- The clade walk names its clades consecutively from `n_clades + 1`. -/
theorem cladeGo_names :
    ∀ fuel l d t n L, cladeGo fuel l d t n = some L →
      ∀ i (h : i < L.length), (L.get ⟨i, h⟩).name = cladeName (n + i + 1) := by
  intro fuel
  induction fuel with
  | zero => intro l d t n L hL; exact absurd hL (by simp [cladeGo])
  | succ fuel ih =>
    intro l d t n L hL
    rw [cladeGo] at hL
    exact cladeLoop_names ih l d t n L hL

/-- C8: the clades returned by `recur_clades` are named `"Clade_1"`,
`"Clade_2"`, … with consecutive numbers in the order the clade roots are
encountered by the depth-first left-to-right walk (the order of the
returned list); the numbering continues from `n_clades` and is threaded
through descents and returns, so it is shared across the entire
decomposition and never reset. -/
theorem c8_sequential_naming {fuel : ℕ} {tup : PyVal} {d t : PyFloat} {n : ℕ}
    {L : List Tree} (hL : recur_clades fuel tup d t n = some L) :
    ∀ i (h : i < L.length), (L.get ⟨i, h⟩).name = cladeName (n + i + 1) := by
  unfold recur_clades at hL
  exact cladeGo_names fuel (pyElems tup) d t n L hL

/-- Closed witness for C8 on the concrete scenario tree: the second
clade found at threshold `0.5` is named `Clade_2`. -/
theorem c8_sequential_naming_witness :
    (([Tree.mk (.str "B") ["B"] "Clade_1" none,
       Tree.mk (.str "C") ["C"] "Clade_2" none] : List Tree).get
        ⟨1, by norm_num⟩).name = cladeName (0 + 1 + 1) :=
  @c8_sequential_naming 30 c1tree pyZero ⟨1, 2⟩ 0
    [Tree.mk (.str "B") ["B"] "Clade_1" none, Tree.mk (.str "C") ["C"] "Clade_2" none]
    rfl 1 (by norm_num)


/-- `pyZero` denotes `0`. -/
theorem pyZero_toRat : pyZero.toRat = 0 := by
  norm_num [PyFloat.toRat, pyZero]

/-- A positive-denominator fraction denotes a positive rational iff its
numerator is positive. -/
theorem PyFloat.toRat_pos {a : PyFloat} (ha : 0 < a.den) :
    0 < a.toRat ↔ 0 < a.num := by
  unfold PyFloat.toRat
  have ha2 : (0 : ℚ) < (a.den : ℚ) := by exact_mod_cast ha
  rw [div_pos_iff]
  constructor
  · rintro (⟨h1, _⟩ | ⟨_, h2⟩)
    · exact_mod_cast h1
    · exact absurd h2 (not_lt.mpr ha2.le)
  · intro h
    exact Or.inl ⟨by exact_mod_cast h, ha2⟩

/-- Positivity of all branch lengths implies well-formedness. -/
theorem posList_wfList : ∀ fuel l, posList fuel l = true → wfList fuel l = true := by
  intro fuel
  induction fuel with
  | zero => intro l h; exact absurd h (by simp [posList])
  | succ fuel ih =>
    intro l h
    rw [posList] at h
    rw [wfList]
    dsimp only at h ⊢
    rw [List.all_eq_true] at h ⊢
    intro e he
    have h2 := h e he
    unfold posElem at h2
    unfold wfElem
    cases e with
    | str s => exact absurd h2 (by simp)
    | list l2 => exact absurd h2 (by simp)
    | tuple el =>
      rcases Bool.and_eq_true_iff.mp h2 with ⟨hlast, hh⟩
      apply Bool.and_eq_true_iff.mpr
      constructor
      · cases hld : el.getLast? with
        | none => rw [hld] at hlast; exact absurd hlast (by simp)
        | some w =>
          rw [hld] at hlast
          cases w with
          | str s => rfl
          | tuple l2 => exact absurd hlast (by simp)
          | list l2 => exact absurd hlast (by simp)
      · cases hhd : el.head? with
        | none => rw [hhd] at hh; exact absurd hh (by simp)
        | some w =>
          rw [hhd] at hh
          cases w with
          | str nm => rfl
          | tuple c => exact ih c hh
          | list l2 => exact absurd hh (by simp)

/-- C2 amended: for every parsed-shape tree all of whose branch lengths
are numeric and **positive**, and every threshold denoting a rational
`≤ 0`, `recur_clades` returns exactly the root's immediate children,
each as one clade, in left-to-right order (the claim fails for merely
non-negative lengths: a zero-length child is skipped, see the
counterexample). -/
theorem c2_amended {fuel : ℕ} {l : List PyVal} {t : PyFloat}
    (hl : posList (fuel + 1) l = true) (ht : t.toRat ≤ 0) (htd : 0 < t.den) :
    ∀ n, recur_clades (fuel + 1) (.tuple l) pyZero t n = some (rootClades fuel n l) := by
  unfold recur_clades pyElems
  dsimp only
  rw [posList] at hl
  dsimp only at hl
  rw [List.all_eq_true] at hl
  induction l with
  | nil => intro n; rfl
  | cons e rest ih =>
    intro n
    have he := hl e (List.mem_cons_self e rest)
    have hrest : ∀ x ∈ rest, posElem (posList fuel) x = true :=
      fun x hx => hl x (List.mem_cons_of_mem e hx)
    rw [cladeGo, cladeLoop]
    unfold posElem at he
    cases e with
    | str s => exact absurd he (by simp)
    | list l2 => exact absurd he (by simp)
    | tuple el =>
      rcases Bool.and_eq_true_iff.mp he with ⟨hlast, hh⟩
      rw [eLast_tuple]
      cases hld : el.getLast? with
      | none => rw [hld] at hlast; exact absurd hlast (by simp)
      | some w =>
        rw [hld] at hlast
        cases w with
        | tuple l2 => exact absurd hlast (by simp)
        | list l2 => exact absurd hlast (by simp)
        | str s =>
          have hlast2 : (match parseFloat s with
              | some q => decide (0 < q.num)
              | none => false) = true := hlast
          dsimp only
          cases hq : parseFloat s with
          | none => rw [hq] at hlast2; exact absurd hlast2 (by simp)
          | some q =>
            rw [hq] at hlast2
            have hqpos : 0 < q.num := of_decide_eq_true hlast2
            have hqd : 0 < q.den := parseFloat_denPos hq
            dsimp only
            have hzero : (q.add pyZero).isZero = false := by
              unfold PyFloat.isZero PyFloat.add pyZero
              simp
              omega
            have hadd_den : 0 < (q.add pyZero).den := PyFloat.add_denPos hqd Nat.one_pos
            have hle : t.le (q.add pyZero) = true := by
              rw [PyFloat.le_iff_toRat htd hadd_den]
              rw [PyFloat.toRat_add hqd Nat.one_pos, pyZero_toRat]
              have : 0 < q.toRat := (PyFloat.toRat_pos hqd).mpr hqpos
              linarith
            simp only [hzero, Bool.false_eq_true, if_false, hle, if_true]
            have ihr := ih hrest (n + 1)
            rw [cladeGo] at ihr
            cases hhd : el.head? with
            | none => rw [hhd] at hh; exact absurd hh (by simp)
            | some w2 =>
              rw [hhd] at hh
              cases w2 with
              | list l3 => exact absurd hh (by simp)
              | str nm =>
                rw [eHead_tuple, hhd]
                dsimp only
                rw [ihr]
                rw [rootClades]
                have hco : contentOf (.tuple el) = .str nm := by
                  unfold contentOf
                  rw [eHead_tuple, hhd]
                  rfl
                rw [hco]
                rfl
              | tuple c =>
                rw [eHead_tuple, hhd]
                dsimp only
                have hwf := posList_wfList fuel c hh
                have hlv := leavesLevel_isSome fuel c hwf
                cases hlv2 : leavesLevel fuel c with
                | none => rw [hlv2] at hlv; exact absurd hlv (by simp)
                | some lv =>
                  have hmk : Tree.make fuel (.tuple c) (cladeName (n + 1)) =
                      some (Tree.mk (.tuple c) lv (cladeName (n + 1)) none) := by
                    unfold Tree.make
                    simp [read_leaves, hlv2]
                  rw [hmk]
                  dsimp only [Option.bind]
                  rw [ihr]
                  rw [rootClades]
                  have hco : contentOf (.tuple el) = .tuple c := by
                    unfold contentOf
                    rw [eHead_tuple, hhd]
                    rfl
                  rw [hco]
                  simp [read_leaves, hlv2]

/-- Closed witness for the amended C2: both branch lengths of
`(("A","0.5"),("B","1.0"))` are positive, and threshold `0` returns the
two children as `Clade_1`, `Clade_2`. -/
theorem c2_amended_witness :
    recur_clades 1 (.tuple [.tuple [.str "A", .str "0.5"], .tuple [.str "B", .str "1.0"]])
        pyZero pyZero 0 =
      some (rootClades 0 0 [.tuple [.str "A", .str "0.5"], .tuple [.str "B", .str "1.0"]]) :=
  @c2_amended 0 [.tuple [.str "A", .str "0.5"], .tuple [.str "B", .str "1.0"]] pyZero
    (by decide) (by rw [pyZero_toRat]) (by decide) 0

/-- C2 counterexample: the parsed tree of `"(A:0.0,B:1.0);"` has numeric
non-negative branch lengths, yet at threshold `0` the decomposition
returns only the single clade `B` (named `Clade_1`), not the root's two
children as one clade each: the zero-length child `A` is skipped. -/
theorem c2_counterexample :
    parsePipeline "(A:0.0,B:1.0);" = some cex2tree ∧
    recur_clades 30 cex2tree pyZero pyZero 0 =
      some [Tree.mk (.str "B") ["B"] "Clade_1" none] ∧
    (pyElems cex2tree).length = 2 ∧
    recur_clades 30 cex2tree pyZero pyZero 0 ≠ some (rootClades 29 0 (pyElems cex2tree)) := by
  refine ⟨rfl, rfl, rfl, ?_⟩
  intro h
  rw [show recur_clades 30 cex2tree pyZero pyZero 0 =
      some [Tree.mk (.str "B") ["B"] "Clade_1" none] from rfl] at h
  have h2 := congrArg (fun o => (Option.getD o []).length) h
  simp [rootClades, cex2tree, pyElems] at h2


/-- One level of the clade walk only finds clades rooted at contents of
elements of its sibling list, given the same for the walk below. -/
theorem cladeLoop_subtree_aux {fuel : ℕ}
    {prev : List PyVal → PyFloat → PyFloat → ℕ → Option (List Tree)}
    (hprev : ∀ l d t n L, (∀ e ∈ l, CleanElem e) → prev l d t n = some L →
      ∀ c ∈ L, ∃ e ∈ l, ∃ h tl, e = PyVal.tuple (h :: tl) ∧ Subtree c.tree h) :
    ∀ l, (∀ e ∈ l, CleanElem e) → ∀ d t n L, cladeLoop fuel prev l d t n = some L →
      ∀ c ∈ L, ∃ e ∈ l, ∃ h tl, e = PyVal.tuple (h :: tl) ∧ Subtree c.tree h := by
  intro l
  induction l with
  | nil =>
    intro _ d t n L hL c hc
    rw [cladeLoop] at hL
    rw [← Option.some.inj hL] at hc
    exact absurd hc (by simp)
  | cons e rest ih =>
    intro hcl d t n L hL c hc
    have he := hcl e (List.mem_cons_self e rest)
    have hrest : ∀ x ∈ rest, CleanElem x := fun x hx => hcl x (List.mem_cons_of_mem e hx)
    rw [cladeLoop] at hL
    revert hL
    cases he with
    | strHead nm tl =>
      rw [eLast_tuple]
      cases hld : (PyVal.str nm :: tl).getLast? with
      | none => intro hL; exact absurd hL (by simp)
      | some w =>
        cases w with
        | tuple l2 => intro hL; exact absurd hL (by simp)
        | list l2 => intro hL; exact absurd hL (by simp)
        | str s =>
          dsimp only
          cases hq : parseFloat s with
          | none =>
            intro hL
            rcases ih hrest d t n L hL c hc with ⟨e2, he2, hrec⟩
            exact ⟨e2, List.mem_cons_of_mem _ he2, hrec⟩
          | some q =>
            dsimp only
            by_cases hz : (q.add d).isZero = true
            · simp only [hz, if_true]
              intro hL
              rcases ih hrest d t n L hL c hc with ⟨e2, he2, hrec⟩
              exact ⟨e2, List.mem_cons_of_mem _ he2, hrec⟩
            · simp only [hz, Bool.false_eq_true, if_false]
              by_cases hle : t.le (q.add d) = true
              · simp only [hle, if_true, eHead_tuple, List.head?]
                intro hL
                rcases Option.bind_eq_some.mp hL with ⟨c0, hc0, h2⟩
                rcases Option.map_eq_some'.mp h2 with ⟨L2, hL2, hLeq⟩
                subst hLeq
                rcases List.mem_cons.mp hc with hceq | hcmem
                · refine ⟨.tuple (.str nm :: tl), List.mem_cons_self _ _, .str nm, tl, rfl, ?_⟩
                  rw [hceq, Tree.make_tree hc0]
                  exact Subtree.refl _
                · rcases ih hrest d t (n + 1) L2 hL2 c hcmem with ⟨e2, he2, hrec⟩
                  exact ⟨e2, List.mem_cons_of_mem _ he2, hrec⟩
              · simp only [hle, Bool.false_eq_true, if_false, eHead_tuple, List.head?]
                intro hL
                rcases ih hrest d t n L hL c hc with ⟨e2, he2, hrec⟩
                exact ⟨e2, List.mem_cons_of_mem _ he2, hrec⟩
    | tupleHead c2 tl hc2 =>
      rw [eLast_tuple]
      cases hld : (PyVal.tuple c2 :: tl).getLast? with
      | none => intro hL; exact absurd hL (by simp)
      | some w =>
        cases w with
        | tuple l2 => intro hL; exact absurd hL (by simp)
        | list l2 => intro hL; exact absurd hL (by simp)
        | str s =>
          dsimp only
          cases hq : parseFloat s with
          | none =>
            intro hL
            rcases ih hrest d t n L hL c hc with ⟨e2, he2, hrec⟩
            exact ⟨e2, List.mem_cons_of_mem _ he2, hrec⟩
          | some q =>
            dsimp only
            by_cases hz : (q.add d).isZero = true
            · simp only [hz, if_true]
              intro hL
              rcases ih hrest d t n L hL c hc with ⟨e2, he2, hrec⟩
              exact ⟨e2, List.mem_cons_of_mem _ he2, hrec⟩
            · simp only [hz, Bool.false_eq_true, if_false]
              by_cases hle : t.le (q.add d) = true
              · simp only [hle, if_true, eHead_tuple, List.head?]
                intro hL
                rcases Option.bind_eq_some.mp hL with ⟨c0, hc0, h2⟩
                rcases Option.map_eq_some'.mp h2 with ⟨L2, hL2, hLeq⟩
                subst hLeq
                rcases List.mem_cons.mp hc with hceq | hcmem
                · refine ⟨.tuple (.tuple c2 :: tl), List.mem_cons_self _ _, .tuple c2, tl,
                    rfl, ?_⟩
                  rw [hceq, Tree.make_tree hc0]
                  exact Subtree.refl _
                · rcases ih hrest d t (n + 1) L2 hL2 c hcmem with ⟨e2, he2, hrec⟩
                  exact ⟨e2, List.mem_cons_of_mem _ he2, hrec⟩
              · simp only [hle, Bool.false_eq_true, if_false, eHead_tuple, List.head?]
                intro hL
                rcases Option.bind_eq_some.mp hL with ⟨sub, hsub, h2⟩
                rcases Option.map_eq_some'.mp h2 with ⟨L2, hL2, hLeq⟩
                subst hLeq
                rcases List.mem_append.mp hc with hcsub | hcmem
                · rcases hprev c2 (q.add d) t n sub hc2 hsub c hcsub with
                    ⟨e2, he2, h3, tl3, heq, hstep⟩
                  refine ⟨.tuple (.tuple c2 :: tl), List.mem_cons_self _ _, .tuple c2, tl,
                    rfl, ?_⟩
                  exact Subtree.step hstep (heq ▸ he2)
                · rcases ih hrest d t (n + sub.length) L2 hL2 c hcmem with ⟨e2, he2, hrec⟩
                  exact ⟨e2, List.mem_cons_of_mem _ he2, hrec⟩

/-- The clade walk only finds clades rooted at element contents. -/
theorem cladeGo_subtree_aux :
    ∀ fuel l, (∀ e ∈ l, CleanElem e) → ∀ d t n L, cladeGo fuel l d t n = some L →
      ∀ c ∈ L, ∃ e ∈ l, ∃ h tl, e = PyVal.tuple (h :: tl) ∧ Subtree c.tree h := by
  intro fuel
  induction fuel with
  | zero => intro l _ d t n L hL; exact absurd hL (by simp [cladeGo])
  | succ fuel ih =>
    intro l hcl d t n L hL
    rw [cladeGo] at hL
    exact cladeLoop_subtree_aux (fun l2 d2 t2 n2 L2 hcl2 hL2 => ih l2 hcl2 d2 t2 n2 L2 hL2)
      l hcl d t n L hL

/-- Every clade found by the walk is a subtree of the walked tuple. -/
theorem cladeGo_subtree {fuel : ℕ} {l : List PyVal} {d t : PyFloat} {n : ℕ}
    {L : List Tree} (hcl : ∀ e ∈ l, CleanElem e) (hL : cladeGo fuel l d t n = some L) :
    ∀ c ∈ L, Subtree c.tree (.tuple l) := by
  intro c hc
  rcases cladeGo_subtree_aux fuel l hcl d t n L hL c hc with ⟨e, he, h, tl, heq, hsub⟩
  exact Subtree.step hsub (heq ▸ he)


/-- One level of threshold monotonicity: every clade found at the higher
threshold `t2` sits inside a clade found at the lower threshold `t1`,
given the same for the walks below. -/
theorem cladeLoop_mono_aux {f1 f2 : ℕ} {t1 t2 : PyFloat}
    (ih_outer : ∀ l2 d2, (∀ e ∈ l2, CleanElem e) → 0 < d2.den →
      ∀ n1 n2 L1 L2, cladeGo f1 l2 d2 t1 n1 = some L1 → cladeGo f2 l2 d2 t2 n2 = some L2 →
      ∀ c ∈ L2, ∃ c1 ∈ L1, Subtree c.tree c1.tree)
    (hlt : t1.toRat ≤ t2.toRat) (h1 : 0 < t1.den) (h2 : 0 < t2.den) :
    ∀ l d, (∀ e ∈ l, CleanElem e) → 0 < d.den →
      ∀ n1 n2 L1 L2,
        cladeLoop f1 (cladeGo f1) l d t1 n1 = some L1 →
        cladeLoop f2 (cladeGo f2) l d t2 n2 = some L2 →
        ∀ c ∈ L2, ∃ c1 ∈ L1, Subtree c.tree c1.tree := by
  intro l d hcl hd
  induction l with
  | nil =>
    intro n1 n2 L1 L2 hL1 hL2 c hc
    rw [cladeLoop] at hL2
    rw [← Option.some.inj hL2] at hc
    exact absurd hc (by simp)
  | cons e rest ihl0 =>
    have he := hcl e (List.mem_cons_self e rest)
    have hrest : ∀ x ∈ rest, CleanElem x := fun x hx => hcl x (List.mem_cons_of_mem e hx)
    have ihl : (∀ x ∈ rest, CleanElem x) → ∀ n1 n2 L1 L2,
        cladeLoop f1 (cladeGo f1) rest d t1 n1 = some L1 →
        cladeLoop f2 (cladeGo f2) rest d t2 n2 = some L2 →
        ∀ c ∈ L2, ∃ c1 ∈ L1, Subtree c.tree c1.tree := fun h5 => ihl0 h5
    intro n1 n2 L1 L2 hL1 hL2
    rw [cladeLoop] at hL1 hL2
    revert hL1 hL2
    cases he with
    | strHead nm tl =>
      rw [eLast_tuple]
      cases hld : (PyVal.str nm :: tl).getLast? with
      | none => intro hL1 hL2; exact absurd hL1 (by simp)
      | some w =>
        cases w with
        | tuple l2 => intro hL1 hL2; exact absurd hL1 (by simp)
        | list l2 => intro hL1 hL2; exact absurd hL1 (by simp)
        | str s =>
          dsimp only
          cases hq : parseFloat s with
          | none =>
            intro hL1 hL2
            exact ihl hrest n1 n2 L1 L2 hL1 hL2
          | some q =>
            dsimp only
            have hedden : 0 < (q.add d).den := PyFloat.add_denPos (parseFloat_denPos hq) hd
            by_cases hz : (q.add d).isZero = true
            · simp only [hz, if_true]
              intro hL1 hL2
              exact ihl hrest n1 n2 L1 L2 hL1 hL2
            · simp only [hz, Bool.false_eq_true, if_false]
              by_cases ht2le : t2.le (q.add d) = true
              · have ht1le : t1.le (q.add d) = true := by
                  rw [PyFloat.le_iff_toRat h1 hedden]
                  have h5 := (PyFloat.le_iff_toRat h2 hedden).mp ht2le
                  linarith
                simp only [ht2le, ht1le, if_true, eHead_tuple, List.head?]
                intro hL1 hL2
                rcases Option.bind_eq_some.mp hL1 with ⟨c1, hc1, h12⟩
                rcases Option.map_eq_some'.mp h12 with ⟨L1R, hL1R, hL1eq⟩
                subst hL1eq
                rcases Option.bind_eq_some.mp hL2 with ⟨c2h, hc2h, h22⟩
                rcases Option.map_eq_some'.mp h22 with ⟨L2R, hL2R, hL2eq⟩
                subst hL2eq
                intro c hc
                rcases List.mem_cons.mp hc with hceq | hcmem
                · refine ⟨c1, List.mem_cons_self _ _, ?_⟩
                  rw [hceq, Tree.make_tree hc2h, Tree.make_tree hc1]
                  exact Subtree.refl _
                · rcases ihl hrest (n1 + 1) (n2 + 1) L1R L2R hL1R hL2R c hcmem with
                    ⟨c1m, hc1m, hsub⟩
                  exact ⟨c1m, List.mem_cons_of_mem _ hc1m, hsub⟩
              · by_cases ht1le : t1.le (q.add d) = true
                · simp only [ht2le, ht1le, if_true, Bool.false_eq_true, if_false,
                    eHead_tuple, List.head?]
                  intro hL1 hL2
                  rcases Option.bind_eq_some.mp hL1 with ⟨c1, hc1, h12⟩
                  rcases Option.map_eq_some'.mp h12 with ⟨L1R, hL1R, hL1eq⟩
                  subst hL1eq
                  intro c hc
                  rcases ihl hrest (n1 + 1) n2 L1R L2 hL1R hL2 c hc with ⟨c1m, hc1m, hsub⟩
                  exact ⟨c1m, List.mem_cons_of_mem _ hc1m, hsub⟩
                · simp only [ht2le, ht1le, Bool.false_eq_true, if_false,
                    eHead_tuple, List.head?]
                  intro hL1 hL2
                  exact ihl hrest n1 n2 L1 L2 hL1 hL2

    | tupleHead c2 tl hc2 =>
      rw [eLast_tuple]
      cases hld : (PyVal.tuple c2 :: tl).getLast? with
      | none => intro hL1 hL2; exact absurd hL1 (by simp)
      | some w =>
        cases w with
        | tuple l2 => intro hL1 hL2; exact absurd hL1 (by simp)
        | list l2 => intro hL1 hL2; exact absurd hL1 (by simp)
        | str s =>
          dsimp only
          cases hq : parseFloat s with
          | none =>
            intro hL1 hL2
            exact ihl hrest n1 n2 L1 L2 hL1 hL2
          | some q =>
            dsimp only
            have hedden : 0 < (q.add d).den := PyFloat.add_denPos (parseFloat_denPos hq) hd
            by_cases hz : (q.add d).isZero = true
            · simp only [hz, if_true]
              intro hL1 hL2
              exact ihl hrest n1 n2 L1 L2 hL1 hL2
            · simp only [hz, Bool.false_eq_true, if_false]
              by_cases ht2le : t2.le (q.add d) = true
              · have ht1le : t1.le (q.add d) = true := by
                  rw [PyFloat.le_iff_toRat h1 hedden]
                  have h5 := (PyFloat.le_iff_toRat h2 hedden).mp ht2le
                  linarith
                simp only [ht2le, ht1le, if_true, eHead_tuple, List.head?]
                intro hL1 hL2
                rcases Option.bind_eq_some.mp hL1 with ⟨c1, hc1, h12⟩
                rcases Option.map_eq_some'.mp h12 with ⟨L1R, hL1R, hL1eq⟩
                subst hL1eq
                rcases Option.bind_eq_some.mp hL2 with ⟨c2h, hc2h, h22⟩
                rcases Option.map_eq_some'.mp h22 with ⟨L2R, hL2R, hL2eq⟩
                subst hL2eq
                intro c hc
                rcases List.mem_cons.mp hc with hceq | hcmem
                · refine ⟨c1, List.mem_cons_self _ _, ?_⟩
                  rw [hceq, Tree.make_tree hc2h, Tree.make_tree hc1]
                  exact Subtree.refl _
                · rcases ihl hrest (n1 + 1) (n2 + 1) L1R L2R hL1R hL2R c hcmem with
                    ⟨c1m, hc1m, hsub⟩
                  exact ⟨c1m, List.mem_cons_of_mem _ hc1m, hsub⟩
              · by_cases ht1le : t1.le (q.add d) = true
                · simp only [ht2le, ht1le, if_true, Bool.false_eq_true, if_false,
                    eHead_tuple, List.head?]
                  intro hL1 hL2
                  rcases Option.bind_eq_some.mp hL1 with ⟨c1, hc1, h12⟩
                  rcases Option.map_eq_some'.mp h12 with ⟨L1R, hL1R, hL1eq⟩
                  subst hL1eq
                  rcases Option.bind_eq_some.mp hL2 with ⟨sub2, hsub2, h22⟩
                  rcases Option.map_eq_some'.mp h22 with ⟨L2R, hL2R, hL2eq⟩
                  subst hL2eq
                  intro c hc
                  rcases List.mem_append.mp hc with hcsub | hcmem
                  · refine ⟨c1, List.mem_cons_self _ _, ?_⟩
                    have hst := cladeGo_subtree (fun e2 he2 => hc2 e2 he2) hsub2 c hcsub
                    rw [Tree.make_tree hc1]
                    exact hst
                  · rcases ihl hrest (n1 + 1) (n2 + sub2.length) L1R L2R hL1R hL2R c hcmem with
                      ⟨c1m, hc1m, hsub⟩
                    exact ⟨c1m, List.mem_cons_of_mem _ hc1m, hsub⟩
                · simp only [ht2le, ht1le, Bool.false_eq_true, if_false,
                    eHead_tuple, List.head?]
                  intro hL1 hL2
                  rcases Option.bind_eq_some.mp hL1 with ⟨sub1, hsub1, h12⟩
                  rcases Option.map_eq_some'.mp h12 with ⟨L1R, hL1R, hL1eq⟩
                  subst hL1eq
                  rcases Option.bind_eq_some.mp hL2 with ⟨sub2, hsub2, h22⟩
                  rcases Option.map_eq_some'.mp h22 with ⟨L2R, hL2R, hL2eq⟩
                  subst hL2eq
                  intro c hc
                  rcases List.mem_append.mp hc with hcsub | hcmem
                  · rcases ih_outer c2 (q.add d) (fun e2 he2 => hc2 e2 he2) hedden
                      n1 n2 sub1 sub2 hsub1 hsub2 c hcsub with ⟨c1m, hc1m, hsub⟩
                    exact ⟨c1m, List.mem_append_left _ hc1m, hsub⟩
                  · rcases ihl hrest (n1 + sub1.length) (n2 + sub2.length) L1R L2R hL1R hL2R
                      c hcmem with ⟨c1m, hc1m, hsub⟩
                    exact ⟨c1m, List.mem_append_right _ hc1m, hsub⟩


/-- Threshold monotonicity of the clade walk, for all fuels. -/
theorem cladeGo_mono {t1 t2 : PyFloat} (hlt : t1.toRat ≤ t2.toRat) (h1 : 0 < t1.den)
    (h2 : 0 < t2.den) :
    ∀ f2 f1 l d, (∀ e ∈ l, CleanElem e) → 0 < d.den →
      ∀ n1 n2 L1 L2, cladeGo f1 l d t1 n1 = some L1 → cladeGo f2 l d t2 n2 = some L2 →
      ∀ c ∈ L2, ∃ c1 ∈ L1, Subtree c.tree c1.tree := by
  intro f2
  induction f2 with
  | zero => intro f1 l d _ _ n1 n2 L1 L2 _ hL2; exact absurd hL2 (by simp [cladeGo])
  | succ f2 ih =>
    intro f1 l d hcl hd n1 n2 L1 L2 hL1 hL2
    cases f1 with
    | zero => exact absurd hL1 (by simp [cladeGo])
    | succ f1 =>
      rw [cladeGo] at hL1 hL2
      exact cladeLoop_mono_aux
        (fun l2 d2 hcl2 hd2 n1a n2a L1a L2a h1a h2a =>
          ih f1 l2 d2 hcl2 hd2 n1a n2a L1a L2a h1a h2a)
        hlt h1 h2 l d hcl hd n1 n2 L1 L2 hL1 hL2


/-- `split` never returns an empty list of pieces. -/
theorem splitChar_ne_nil (sep : Char) : ∀ cs, splitChar sep cs ≠ [] := by
  intro cs
  induction cs with
  | nil => simp [splitChar]
  | cons c rest ih =>
    rw [splitChar]
    by_cases hc : c = sep
    · simp [hc]
    · simp only [hc, if_false]
      cases hs : splitChar sep rest with
      | nil => exact absurd hs ih
      | cons p ps => simp

/-- `find_correct_comma` never returns an empty list of pieces. -/
theorem find_correct_comma_ne_nil {s : String} {lst : List String}
    (h : find_correct_comma s = some lst) : lst ≠ [] := by
  unfold find_correct_comma at h
  cases hl : topCommaLocs s.data with
  | nil => rw [hl] at h; exact absurd h (by simp)
  | cons p r =>
    rw [hl] at h
    rw [← Option.some.inj h]
    simp

/-- `rsplit(sep, 1)` returns at most two parts. -/
theorem pyrsplit1_len (s : String) (c : Char) : (pyrsplit1 s c).length ≤ 2 := by
  unfold pyrsplit1
  cases ((List.range s.data.length).filter fun i => s.data.get? i == some c).getLast? with
  | none => simp
  | some i => simp

/-- The fragment loop of `read_string` only returns shaped elements,
given that the parser one level down does (at nonzero recursion
numbers). -/
theorem rsFragsLoop_shape {fuel : ℕ}
    (hprev : ∀ f rn v, rn ≠ 0 → read_string fuel f rn = some v → RsElem v) :
    ∀ rn fs vs, rn ≠ 0 → rsFragsLoop (read_string fuel) rn fs = some vs →
      ∀ v ∈ vs, RsElem v := by
  intro rn fs
  induction fs with
  | nil =>
    intro vs _ h v hv
    rw [rsFragsLoop] at h
    rw [← Option.some.inj h] at hv
    exact absurd hv (by simp)
  | cons f fs ih =>
    intro vs hrn h v hv
    rw [rsFragsLoop] at h
    by_cases hemp : f.data.isEmpty
    · rw [if_pos hemp] at h
      exact absurd h (by simp)
    · rw [if_neg hemp] at h
      by_cases hpar : (f.data.head? == some '(') = true
      · rw [if_pos hpar] at h
        rcases Option.bind_eq_some.mp h with ⟨v1, hv1, h2⟩
        rcases Option.bind_eq_some.mp h2 with ⟨vs1, hvs1, h3⟩
        rw [← Option.some.inj h3] at hv
        rcases List.mem_cons.mp hv with hveq | hvmem
        · subst hveq
          exact hprev f rn v hrn hv1
        · exact ih vs1 hrn hvs1 v hvmem
      · rw [if_neg hpar] at h
        rcases Option.bind_eq_some.mp h with ⟨v1, hv1, h2⟩
        rcases Option.bind_eq_some.mp h2 with ⟨vs1, hvs1, h3⟩
        rw [← Option.some.inj h3] at hv
        rcases List.mem_cons.mp hv with hveq | hvmem
        · subst hveq
          rw [← Option.some.inj hv1]
          refine RsElem.leaf _ ?_ ?_
          · have hne := splitChar_ne_nil ':' f.data
            unfold pysplit
            cases hs : splitChar ':' f.data with
            | nil => exact absurd hs hne
            | cons p ps => simp
          · intro x hx
            rcases List.mem_map.mp hx with ⟨p, _, hpx⟩
            exact ⟨p, hpx.symm⟩
        · exact ih vs1 hrn hvs1 v hvmem

/-- The fragment loop returns one value per fragment; in particular a
nonempty fragment list yields a nonempty value list. -/
theorem rsFragsLoop_ne_nil {fuel : ℕ} {rn : ℕ} {f : String} {fs : List String}
    {vs : List PyVal} (h : rsFragsLoop (read_string fuel) rn (f :: fs) = some vs) :
    vs ≠ [] := by
  rw [rsFragsLoop] at h
  by_cases hemp : f.data.isEmpty
  · rw [if_pos hemp] at h
    exact absurd h (by simp)
  · rw [if_neg hemp] at h
    by_cases hpar : (f.data.head? == some '(') = true
    · rw [if_pos hpar] at h
      rcases Option.bind_eq_some.mp h with ⟨v1, _, h2⟩
      rcases Option.bind_eq_some.mp h2 with ⟨vs1, _, h3⟩
      rw [← Option.some.inj h3]
      simp
    · rw [if_neg hpar] at h
      rcases Option.bind_eq_some.mp h with ⟨v1, _, h2⟩
      rcases Option.bind_eq_some.mp h2 with ⟨vs1, _, h3⟩
      rw [← Option.some.inj h3]
      simp

/-- Every value `read_string` returns is shaped: at recursion number `0`
a list of shaped sibling elements, otherwise a shaped element. -/
theorem read_string_shape :
    ∀ fuel s rn v, read_string fuel s rn = some v →
      (rn = 0 → ∃ lst, v = PyVal.list lst ∧ ∀ x ∈ lst, RsElem x) ∧
      (rn ≠ 0 → RsElem v) := by
  intro fuel
  induction fuel with
  | zero => intro s rn v h; exact absurd h (by simp [read_string])
  | succ fuel ih =>
    intro s rn v h
    rw [read_string] at h
    unfold rsLevel at h
    have hprev : ∀ f rn2 v2, rn2 ≠ 0 → read_string fuel f rn2 = some v2 → RsElem v2 :=
      fun f rn2 v2 hrn2 h2 => (ih f rn2 v2 h2).2 hrn2
    by_cases hrn : rn = 0
    · rw [if_pos hrn] at h
      constructor
      · intro _
        have h2 : (match find_correct_comma
              (String.mk ((s.data.take (s.data.length - 2)).drop 1)) with
            | none => none
            | some lst =>
                (rsFragsLoop (read_string fuel) (rn + 1) lst).map PyVal.list)
            = some v := h
        cases hfcc : find_correct_comma
            (String.mk ((s.data.take (s.data.length - 2)).drop 1)) with
        | none =>
          rw [hfcc] at h2
          exact absurd h2 (by simp)
        | some lst =>
          rw [hfcc] at h2
          rcases Option.map_eq_some'.mp h2 with ⟨children, hch, hveq⟩
          refine ⟨children, hveq.symm, ?_⟩
          exact rsFragsLoop_shape hprev (rn + 1) lst children (by omega) hch
      · intro hc; exact absurd hrn hc
    · rw [if_neg hrn] at h
      refine ⟨fun hc => absurd hc hrn, fun _ => ?_⟩
      revert h
      cases hsp : pyrsplit1 s ':' with
      | nil => intro h; exact absurd h (by simp)
      | cons t0 restParts =>
        intro h
        have h2 : (if t0.data.isEmpty then (none : Option PyVal)
            else
              match find_correct_comma
                  (if t0.data.head? == some '(' && t0.data.getLast? == some ')' then
                    String.mk ((t0.data.take (t0.data.length - 1)).drop 1)
                  else t0) with
              | none => none
              | some lst =>
                  (rsFragsLoop (read_string fuel) (rn + 1) lst).map fun children =>
                    PyVal.list (PyVal.list children :: restParts.map PyVal.str))
            = some v := h
        by_cases hemp : t0.data.isEmpty
        · rw [if_pos hemp] at h2
          exact absurd h2 (by simp)
        · rw [if_neg hemp] at h2
          cases hfcc : find_correct_comma
              (if t0.data.head? == some '(' && t0.data.getLast? == some ')' then
                String.mk ((t0.data.take (t0.data.length - 1)).drop 1)
              else t0) with
          | none =>
            rw [hfcc] at h2
            exact absurd h2 (by simp)
          | some lst =>
            rw [hfcc] at h2
            rcases Option.map_eq_some'.mp h2 with ⟨children, hch, hveq⟩
            rw [← hveq]
            have hlst : lst ≠ [] := find_correct_comma_ne_nil hfcc
            have hchne : children ≠ [] := by
              cases lst with
              | nil => exact absurd rfl hlst
              | cons f fs => exact rsFragsLoop_ne_nil hch
            refine RsElem.internal children (restParts.map .str) hchne ?_ ?_ ?_
            · exact fun c hc =>
                rsFragsLoop_shape hprev (rn + 1) lst children (by omega) hch c hc
            · intro x hx
              rcases List.mem_map.mp hx with ⟨p, _, hpx⟩
              exact ⟨p, hpx.symm⟩
            · have := pyrsplit1_len s ':'
              rw [hsp] at this
              simp at this
              simp [this]


/-- One pass of the `format_list` loop turns a list of elements that each
format to clean tuples into a list of clean tuples. -/
theorem fmtLoop_clean (prev : List PyVal → Option (List PyVal)) :
    ∀ l l2, (∀ v ∈ l, ∀ w, fmtElemB prev v = some w → CleanElem w) →
      fmtLoop prev l = some l2 → ∀ w ∈ l2, CleanElem w := by
  intro l
  induction l with
  | nil =>
    intro l2 _ h w hw
    rw [fmtLoop] at h
    rw [← Option.some.inj h] at hw
    exact absurd hw (by simp)
  | cons e rest ih =>
    intro l2 hcl h w hw
    rw [fmtLoop] at h
    rcases Option.bind_eq_some.mp h with ⟨w1, hw1, h2⟩
    rcases Option.bind_eq_some.mp h2 with ⟨ws, hws, h3⟩
    rw [← Option.some.inj h3] at hw
    rcases List.mem_cons.mp hw with hweq | hwmem
    · subst hweq
      exact hcl e (List.mem_cons_self e rest) w hw1
    · exact ih ws (fun v hv => hcl v (List.mem_cons_of_mem e hv)) hws w hwmem

/-- Formatting a shaped `read_string` element yields a clean element: a
tuple whose first entry is a string (a leaf) or a tuple of recursively
clean elements (an internal node). -/
theorem fmtElemB_clean :
    ∀ v, RsElem v → ∀ F w, fmtElemB (fmtList F) v = some w → CleanElem w := by
  intro v hv
  induction hv with
  | leaf l hne hstr =>
    intro F w h
    cases l with
    | nil => exact absurd rfl hne
    | cons x xs =>
      rcases hstr x (List.mem_cons_self x xs) with ⟨s, hs⟩
      subst hs
      have h2 : some (PyVal.tuple (PyVal.str s :: xs)) = some w := h
      rw [← Option.some.inj h2]
      exact CleanElem.strHead s xs
  | internal children strs hne hch hstr hlen ih =>
    intro F w h
    have h2 : (fmtList F (PyVal.list children :: strs)).map PyVal.tuple = some w := h
    rcases Option.map_eq_some'.mp h2 with ⟨m2, hm2, hw⟩
    cases F with
    | zero => exact absurd hm2 (by simp [fmtList])
    | succ F1 =>
      rw [fmtList] at hm2
      rw [fmtLoop] at hm2
      rcases Option.bind_eq_some.mp hm2 with ⟨w1, hw1, hrest⟩
      rcases Option.bind_eq_some.mp hrest with ⟨wrest, hwrest, heq⟩
      cases children with
      | nil => exact absurd rfl hne
      | cons c1 crest =>
        have hc1 : RsElem c1 := hch c1 (List.mem_cons_self c1 crest)
        obtain ⟨l1, hl1⟩ : ∃ l0, c1 = PyVal.list l0 := by
          cases hc1 with
          | leaf l0 h1 h2 => exact ⟨l0, rfl⟩
          | internal ch st h1 h2 h3 h4 => exact ⟨_, rfl⟩
        subst hl1
        have hw1b : (fmtList F1 (PyVal.list l1 :: crest)).map PyVal.tuple = some w1 := hw1
        rcases Option.map_eq_some'.mp hw1b with ⟨children2, hch2, hw1eq⟩
        cases F1 with
        | zero => exact absurd hch2 (by simp [fmtList])
        | succ F2 =>
          rw [fmtList] at hch2
          have hclean : ∀ e ∈ children2, CleanElem e := by
            refine fmtLoop_clean (fmtList F2) (PyVal.list l1 :: crest) children2 ?_ hch2
            intro v2 hv2 w2 hw2
            exact ih v2 hv2 F2 w2 hw2
          have hm : m2 = w1 :: wrest := (Option.some.inj heq).symm
          subst hm
          rw [← hw, ← hw1eq]
          exact CleanElem.tupleHead children2 wrest hclean

/-- Any value the parse pipeline returns is a tuple of clean elements. -/
theorem parse_wf {s : String} {tup : PyVal} (h : parsePipeline s = some tup) :
    ∃ l, tup = PyVal.tuple l ∧ ∀ e ∈ l, CleanElem e := by
  unfold parsePipeline at h
  rcases Option.bind_eq_some.mp h with ⟨v, hv, hf⟩
  rcases (read_string_shape (s.data.length + 1) s 0 v hv).1 rfl with ⟨lst, hveq, hlst⟩
  subst hveq
  have hf2 : (fmtList (s.data.length + 1) lst).map PyVal.tuple = some tup := hf
  rcases Option.map_eq_some'.mp hf2 with ⟨l, hl, htup⟩
  refine ⟨l, htup.symm, ?_⟩
  rw [fmtList] at hl
  refine fmtLoop_clean (fmtList s.data.length) lst l ?_ hl
  intro v2 hv2 w hw
  exact fmtElemB_clean v2 (hlst v2 hv2) s.data.length w hw

/-- C3: for every parsed tree and thresholds t1 < t2, every clade the
walk returns at the higher threshold t2 is rooted at a subtree of (or
equal to) the tree of some clade returned at the lower threshold t1 —
raising the threshold never produces a clade outside a lower-threshold
clade. -/
theorem c3_threshold_monotonicity {s : String} {tup : PyVal} {t1 t2 : PyFloat}
    {f1 f2 : ℕ} {L1 L2 : List Tree}
    (hp : parsePipeline s = some tup) (hlt : t1.toRat < t2.toRat)
    (h1 : 0 < t1.den) (h2 : 0 < t2.den)
    (hL1 : recur_clades f1 tup pyZero t1 0 = some L1)
    (hL2 : recur_clades f2 tup pyZero t2 0 = some L2) :
    ∀ c2 ∈ L2, ∃ c1 ∈ L1, Subtree c2.tree c1.tree := by
  rcases parse_wf hp with ⟨l, htup, hcl⟩
  subst htup
  unfold recur_clades at hL1 hL2
  exact cladeGo_mono hlt.le h1 h2 f2 f1 l pyZero hcl (by decide) 0 0 L1 L2 hL1 hL2

/-- The C3 theorem at the concrete input "(A:1,(B:1,C:1):1);" with
thresholds 1 and 2: the clade B found at threshold 2 is rooted at a
subtree of some clade found at threshold 1 (namely the (B,C) node). -/
theorem c3_threshold_monotonicity_witness :
    ∃ c1 ∈ (recur_clades 20 (PyVal.tuple
      [PyVal.tuple [PyVal.str "A", PyVal.str "1"],
       PyVal.tuple
         [PyVal.tuple
            [PyVal.tuple [PyVal.str "B", PyVal.str "1"],
             PyVal.tuple [PyVal.str "C", PyVal.str "1"]],
          PyVal.str "1"]]) pyZero ⟨1, 1⟩ 0).getD [],
      Subtree (PyVal.str "B") c1.tree :=
  @c3_threshold_monotonicity "(A:1,(B:1,C:1):1);" (PyVal.tuple
      [PyVal.tuple [PyVal.str "A", PyVal.str "1"],
       PyVal.tuple
         [PyVal.tuple
            [PyVal.tuple [PyVal.str "B", PyVal.str "1"],
             PyVal.tuple [PyVal.str "C", PyVal.str "1"]],
          PyVal.str "1"]]) ⟨1, 1⟩ ⟨2, 1⟩ 20 20
    ((recur_clades 20 (PyVal.tuple
      [PyVal.tuple [PyVal.str "A", PyVal.str "1"],
       PyVal.tuple
         [PyVal.tuple
            [PyVal.tuple [PyVal.str "B", PyVal.str "1"],
             PyVal.tuple [PyVal.str "C", PyVal.str "1"]],
          PyVal.str "1"]]) pyZero ⟨1, 1⟩ 0).getD [])
    ((recur_clades 20 (PyVal.tuple
      [PyVal.tuple [PyVal.str "A", PyVal.str "1"],
       PyVal.tuple
         [PyVal.tuple
            [PyVal.tuple [PyVal.str "B", PyVal.str "1"],
             PyVal.tuple [PyVal.str "C", PyVal.str "1"]],
          PyVal.str "1"]]) pyZero ⟨2, 1⟩ 0).getD [])
    (by rfl) (by norm_num [PyFloat.toRat]) (by decide) (by decide) (by rfl) (by rfl)
    (Tree.mk (PyVal.str "B") ["B"] "Clade_1" none)
    (by exact List.mem_cons_self _ _)

end Phylogeny
